import Mathlib

/- Verification of the abstract binary-search-tree engine of bintrees
   (src/bintrees/abctree.py) against its natural-language specification.

   Shallow embedding conventions:
   * a Python node (attributes key, value, left, right) is a `Tree.node`;
     Python `None` standing for a missing child or an empty root is `Tree.nil`;
   * the mutable tree object is passed explicitly: mutating methods return the
     new tree;
   * raised exceptions become error results; abctree.py raises exactly two
     exception types, KeyError and ValueError, modelled by `PyError`;
   * the node-count attribute `count` of the external node store is specified
     to equal the number of reachable nodes, so it is embedded as `size`;
   * Python's unbounded `while` loops over child pointers are embedded either
     structurally (when the loop descends along a child) or with an explicit
     step budget that is proved sufficient (the iterator's stack loop). -/

namespace Bintrees

/-- Python error kinds raised in abctree.py: KeyError and ValueError. -/
inductive PyError where
  | keyError
  | valueError
deriving DecidableEq

/-- A node layout: `node left key value right`; `nil` models Python `None`. -/
inductive Tree (α β : Type) where
  | nil
  | node (l : Tree α β) (k : α) (v : β) (r : Tree α β)
deriving DecidableEq

variable {α β : Type} [LinearOrder α]

/-- Tests for the Python check `node is None`. -/
def Tree.isNil : Tree α β → Bool
  | .nil => true
  | .node _ _ _ _ => false

/-- Number of reachable nodes; embeds the node store's exact `count`. -/
def size : Tree α β → Nat
  | .nil => 0
  | .node l _ _ r => size l + size r + 1

/-- In-order item list: the (key, value) contents in symmetric order. -/
def itemsList : Tree α β → List (α × β)
  | .nil => []
  | .node l k v r => itemsList l ++ (k, v) :: itemsList r

/-- Keys of the tree in symmetric order. -/
def keysList (t : Tree α β) : List α := (itemsList t).map Prod.fst

/-- BST invariant guaranteed by the node store (spec section 3). -/
def BST : Tree α β → Prop
  | .nil => True
  | .node l k _ r => (∀ x ∈ keysList l, x < k) ∧ (∀ x ∈ keysList r, k < x) ∧ BST l ∧ BST r

instance BST.dec : (t : Tree α β) → Decidable (BST t)
  | .nil => .isTrue trivial
  | .node l k _ r =>
    have dl := BST.dec l
    have dr := BST.dec r
    decidable_of_iff ((∀ x ∈ keysList l, x < k) ∧ (∀ x ∈ keysList r, k < x) ∧ BST l ∧ BST r)
      Iff.rfl

/-- ABCTree.get_value: descend comparing the key at every node; the KeyError
    raised at a dead end is modelled as `none` (it is the only error this
    method can raise). -/
def get_value : Tree α β → α → Option β
  | .nil, _ => none
  | .node l k v r, key =>
    if key = k then some v
    else if key < k then get_value l key
    else get_value r key

/-- The `__contains__` test of _ABCTree: get_value succeeding. -/
def contains (t : Tree α β) (key : α) : Bool := (get_value t key).isSome

/-- Modelled from the spec: the node store's `insert(key, value)` (insert or
    overwrite while keeping the BST invariant) is not part of abctree.py; it is
    modelled as textbook unbalanced BST insertion, which satisfies exactly the
    contract the spec states for it. -/
def insert : Tree α β → α → β → Tree α β
  | .nil, key, val => .node .nil key val .nil
  | .node l k v r, key, val =>
    if key = k then .node l key val r
    else if key < k then .node (insert l key val) k v r
    else .node l k v (insert r key val)

/-- Builds a tree by inserting a list of items left to right; models feeding an
    item sequence to the tree constructor or to `update`. -/
def ofList (xs : List (α × β)) : Tree α β := xs.foldl (fun t p => insert t p.1 p.2) .nil

/-- Modelled from the spec: the node store's `remove(key)` is not part of
    abctree.py; the spec states only its contract — the key is deleted, every
    other mapping survives, the BST invariant is kept, KeyError when the key is
    absent — modelled here by rebuilding the store from the remaining items. -/
def remove (t : Tree α β) (key : α) : Except PyError (Tree α β) :=
  if contains t key then .ok (ofList ((itemsList t).filter fun p => decide (p.1 ≠ key)))
  else .error .keyError

theorem keysList_node (l : Tree α β) (k : α) (v : β) (r : Tree α β) :
    keysList (.node l k v r) = keysList l ++ k :: keysList r := by
  simp [keysList, itemsList]

theorem keys_sorted {t : Tree α β} (h : BST t) : (keysList t).Sorted (· < ·) := by
  induction t with
  | nil => simp [keysList, itemsList, List.Sorted]
  | node l k v r ihl ihr =>
    obtain ⟨hl, hr, bl, br⟩ := h
    rw [keysList_node]
    refine List.pairwise_append.mpr ⟨ihl bl, ?_, ?_⟩
    · exact List.pairwise_cons.mpr ⟨hr, ihr br⟩
    · intro a ha b hb
      rcases List.mem_cons.mp hb with rfl | hb
      · exact hl a ha
      · exact lt_trans (hl a ha) (hr b hb)

theorem keys_nodup {t : Tree α β} (h : BST t) : (keysList t).Nodup :=
  (keys_sorted h).imp fun hlt => ne_of_lt hlt

theorem mem_items_get {t : Tree α β} (h : BST t) (q : α) (v : β) :
    (q, v) ∈ itemsList t ↔ get_value t q = some v := by
  induction t with
  | nil => simp [itemsList, get_value]
  | node l k vv r ihl ihr =>
    obtain ⟨hl, hr, bl, br⟩ := h
    simp only [itemsList, List.mem_append, List.mem_cons, get_value]
    rcases lt_trichotomy q k with hqk | rfl | hqk
    · rw [if_neg (ne_of_lt hqk), if_pos hqk, ← ihl bl]
      constructor
      · rintro (hm | hm | hm)
        · exact hm
        · exact absurd (Prod.ext_iff.mp hm).1 (ne_of_lt hqk)
        · exact absurd (hr q (List.mem_map_of_mem Prod.fst hm)) (not_lt_of_gt hqk)
      · exact fun hm => Or.inl hm
    · rw [if_pos rfl]
      constructor
      · rintro (hm | hm | hm)
        · exact absurd (hl q (List.mem_map_of_mem Prod.fst hm)) (lt_irrefl q)
        · cases hm
          rfl
        · exact absurd (hr q (List.mem_map_of_mem Prod.fst hm)) (lt_irrefl q)
      · intro hv
        exact Or.inr (Or.inl (by rw [Option.some_inj.mp hv]))
    · rw [if_neg (ne_of_gt hqk), if_neg (not_lt_of_gt hqk), ← ihr br]
      constructor
      · rintro (hm | hm | hm)
        · exact absurd (hl q (List.mem_map_of_mem Prod.fst hm)) (not_lt_of_gt hqk)
        · exact absurd (Prod.ext_iff.mp hm).1 (ne_of_gt hqk)
        · exact hm
      · exact fun hm => Or.inr (Or.inr hm)

theorem mem_keys_iff_get {t : Tree α β} (h : BST t) (q : α) :
    q ∈ keysList t ↔ (get_value t q).isSome := by
  constructor
  · intro hq
    obtain ⟨⟨q', v⟩, hm, rfl⟩ := List.mem_map.mp hq
    rw [(mem_items_get h _ _).mp hm]
    rfl
  · intro hq
    obtain ⟨v, hv⟩ := Option.isSome_iff_exists.mp hq
    exact List.mem_map.mpr ⟨(q, v), (mem_items_get h q v).mpr hv, rfl⟩

theorem items_ext {l₁ l₂ : List (α × β)} (h₁ : l₁.Pairwise (fun p q => p.1 < q.1))
    (h₂ : l₂.Pairwise (fun p q => p.1 < q.1)) (hm : ∀ p, p ∈ l₁ ↔ p ∈ l₂) : l₁ = l₂ := by
  haveI : IsAntisymm (α × β) (fun p q => p.1 < q.1) :=
    ⟨fun a b hab hba => absurd (lt_trans hab hba) (lt_irrefl _)⟩
  refine List.eq_of_perm_of_sorted ?_ h₁ h₂
  refine (List.perm_ext_iff_of_nodup ?_ ?_).mpr hm
  · exact h₁.imp fun hlt => by rintro rfl; exact lt_irrefl _ hlt
  · exact h₂.imp fun hlt => by rintro rfl; exact lt_irrefl _ hlt

theorem items_pairwise {t : Tree α β} (h : BST t) :
    (itemsList t).Pairwise (fun p q => p.1 < q.1) := by
  have := keys_sorted h
  rw [keysList, List.Sorted] at this
  exact (List.pairwise_map.mp this)

theorem get_insert (t : Tree α β) (key : α) (val : β) (q : α) :
    get_value (insert t key val) q = if q = key then some val else get_value t q := by
  induction t with
  | nil =>
    simp only [insert, get_value]
    split_ifs with h1 h2 <;> rfl
  | node l k v r ihl ihr =>
    simp only [insert]
    rcases lt_trichotomy key k with hkk | rfl | hkk
    · rw [if_neg (ne_of_lt hkk), if_pos hkk]
      simp only [get_value]
      rcases lt_trichotomy q k with hqk | rfl | hqk
      · rw [if_neg (ne_of_lt hqk), if_neg (ne_of_lt hqk), if_pos hqk, if_pos hqk, ihl]
      · rw [if_pos rfl, if_pos rfl, if_neg (ne_of_gt hkk)]
      · rw [if_neg (ne_of_gt hqk), if_neg (ne_of_gt hqk), if_neg (not_lt_of_gt hqk),
          if_neg (not_lt_of_gt hqk), if_neg (ne_of_gt (lt_trans hkk hqk))]
    · rw [if_pos rfl]
      simp only [get_value]
      rcases eq_or_ne q key with rfl | hq
      · simp
      · rw [if_neg hq, if_neg hq, if_neg hq]
    · rw [if_neg (ne_of_gt hkk), if_neg (not_lt_of_gt hkk)]
      simp only [get_value]
      rcases lt_trichotomy q k with hqk | rfl | hqk
      · rw [if_neg (ne_of_lt hqk), if_neg (ne_of_lt hqk), if_pos hqk, if_pos hqk,
          if_neg (ne_of_lt (lt_trans hqk hkk))]
      · rw [if_pos rfl, if_pos rfl, if_neg (ne_of_lt hkk)]
      · rw [if_neg (ne_of_gt hqk), if_neg (ne_of_gt hqk), if_neg (not_lt_of_gt hqk),
          if_neg (not_lt_of_gt hqk), ihr]

theorem mem_keys_insert {t : Tree α β} {key x : α} {val : β}
    (h : x ∈ keysList (insert t key val)) : x = key ∨ x ∈ keysList t := by
  induction t with
  | nil =>
    simp only [insert, keysList_node, keysList, itemsList, List.map_nil] at h ⊢
    simpa using h
  | node l k v r ihl ihr =>
    simp only [insert] at h
    split_ifs at h with h1 h2
    · subst h1
      rw [keysList_node] at h ⊢
      exact Or.inr h
    · rw [keysList_node] at h
      rcases List.mem_append.mp h with hm | hm
      · rcases ihl hm with hm' | hm'
        · exact Or.inl hm'
        · exact Or.inr (by rw [keysList_node]; exact List.mem_append.mpr (Or.inl hm'))
      · exact Or.inr (by rw [keysList_node]; exact List.mem_append.mpr (Or.inr hm))
    · rw [keysList_node] at h
      rcases List.mem_append.mp h with hm | hm
      · exact Or.inr (by rw [keysList_node]; exact List.mem_append.mpr (Or.inl hm))
      · rcases List.mem_cons.mp hm with rfl | hm'
        · exact Or.inr (by rw [keysList_node]; simp)
        · rcases ihr hm' with hm'' | hm''
          · exact Or.inl hm''
          · exact Or.inr (by rw [keysList_node]; simp [hm''])

theorem BST_insert {t : Tree α β} (h : BST t) (key : α) (val : β) :
    BST (insert t key val) := by
  induction t with
  | nil => exact ⟨by simp [keysList, itemsList], by simp [keysList, itemsList], trivial, trivial⟩
  | node l k v r ihl ihr =>
    obtain ⟨hl, hr, bl, br⟩ := h
    simp only [insert]
    split_ifs with h1 h2
    · subst h1
      exact ⟨hl, hr, bl, br⟩
    · refine ⟨?_, hr, ihl bl, br⟩
      intro x hx
      rcases mem_keys_insert hx with rfl | hx'
      · exact h2
      · exact hl x hx'
    · refine ⟨hl, ?_, bl, ihr br⟩
      intro x hx
      rcases mem_keys_insert hx with rfl | hx'
      · exact lt_of_le_of_ne (le_of_not_lt h2) (Ne.symm h1)
      · exact hr x hx'

theorem BST_foldl {t : Tree α β} (h : BST t) (xs : List (α × β)) :
    BST (xs.foldl (fun t p => insert t p.1 p.2) t) := by
  induction xs generalizing t with
  | nil => exact h
  | cons p xs ih => exact ih (BST_insert h p.1 p.2)

theorem BST_ofList (xs : List (α × β)) : BST (ofList xs) :=
  BST_foldl (show BST (Tree.nil : Tree α β) from trivial) xs

theorem find?_key_of_mem {l : List (α × β)} {p : α × β}
    (hnd : (l.map Prod.fst).Nodup) (hm : p ∈ l) :
    l.find? (fun q => decide (q.1 = p.1)) = some p := by
  induction l with
  | nil => cases hm
  | cons a l ih =>
    rcases List.mem_cons.mp hm with rfl | hm'
    · exact List.find?_cons_of_pos _ (by simp)
    · have hne : a.1 ≠ p.1 := by
        intro hEq
        exact (List.nodup_cons.mp hnd).1 (hEq ▸ List.mem_map_of_mem Prod.fst hm')
      rw [List.find?_cons_of_neg _ (by simpa using hne)]
      exact ih (List.nodup_cons.mp hnd).2 hm'

theorem find?_filter_of_imp {l : List (α × β)} {P Q : α × β → Bool}
    (h : ∀ p, P p = true → Q p = true) : (l.filter Q).find? P = l.find? P := by
  induction l with
  | nil => rfl
  | cons a l ih =>
    by_cases hQ : Q a = true
    · rw [List.filter_cons_of_pos hQ]
      by_cases hP : P a = true
      · rw [List.find?_cons_of_pos _ hP, List.find?_cons_of_pos _ hP]
      · rw [List.find?_cons_of_neg _ (by simpa using hP),
          List.find?_cons_of_neg _ (by simpa using hP), ih]
    · have hP : ¬ P a = true := fun hc => hQ (h a hc)
      rw [List.filter_cons_of_neg (by simpa using hQ),
        List.find?_cons_of_neg _ (by simpa using hP), ih]

theorem get_foldl {xs : List (α × β)} (hnd : (xs.map Prod.fst).Nodup) (t : Tree α β) (q : α) :
    get_value (xs.foldl (fun t p => insert t p.1 p.2) t) q =
      match xs.find? (fun p => decide (p.1 = q)) with
      | some p => some p.2
      | none => get_value t q := by
  induction xs generalizing t with
  | nil => rfl
  | cons p xs ih =>
    simp only [List.foldl_cons]
    rw [ih (List.nodup_cons.mp (by simpa using hnd)).2]
    rcases eq_or_ne q p.1 with rfl | hq
    · have hnone : xs.find? (fun r => decide (r.1 = p.1)) = none := by
        refine List.find?_eq_none.mpr fun r hr => by
          simp only [decide_eq_true_eq]
          intro hEq
          exact (List.nodup_cons.mp (by simpa using hnd)).1 (hEq ▸ List.mem_map_of_mem Prod.fst hr)
      rw [hnone, List.find?_cons_of_pos _ (by simp), get_insert, if_pos rfl]
    · rw [List.find?_cons_of_neg _ (by simpa using fun h => hq h.symm)]
      cases hfind : xs.find? (fun r => decide (r.1 = q)) with
      | some r => rfl
      | none => rw [get_insert, if_neg hq]

theorem get_ofList {xs : List (α × β)} (hnd : (xs.map Prod.fst).Nodup) (q : α) :
    get_value (ofList xs) q =
      match xs.find? (fun p => decide (p.1 = q)) with
      | some p => some p.2
      | none => none := by
  rw [ofList, get_foldl hnd]
  cases xs.find? (fun p => decide (p.1 = q)) <;> rfl

theorem find?_items_get {t : Tree α β} (h : BST t) (q : α) :
    (itemsList t).find? (fun p => decide (p.1 = q)) = (get_value t q).map (fun v => (q, v)) := by
  cases hg : get_value t q with
  | some v =>
    have hm : (q, v) ∈ itemsList t := (mem_items_get h q v).mpr hg
    simpa using find?_key_of_mem (keys_nodup h) hm
  | none =>
    refine List.find?_eq_none.mpr fun p hp => by
      simp only [decide_eq_true_eq]
      intro hEq
      have hks : p.1 ∈ keysList t := List.mem_map_of_mem Prod.fst hp
      rw [hEq] at hks
      have h2 := (mem_keys_iff_get h q).mp hks
      rw [hg] at h2
      simp at h2

theorem remove_ok {t : Tree α β} (h : BST t) {key : α} {t' : Tree α β}
    (hr : remove t key = .ok t') :
    BST t' ∧ ∀ q, get_value t' q = if q = key then none else get_value t q := by
  rw [remove] at hr
  split_ifs at hr with hc
  · obtain rfl := Except.ok.inj hr
    refine ⟨BST_ofList _, fun q => ?_⟩
    have hnd : (((itemsList t).filter fun p => decide (p.1 ≠ key)).map Prod.fst).Nodup :=
      (keys_nodup h).sublist (List.Sublist.map Prod.fst (List.filter_sublist _))
    rw [get_ofList hnd]
    rcases eq_or_ne q key with rfl | hq
    · have : ((itemsList t).filter fun p => decide (p.1 ≠ q)).find?
          (fun p => decide (p.1 = q)) = none := by
        refine List.find?_eq_none.mpr fun p hp => by
          simp only [decide_eq_true_eq]
          intro hEq
          have := List.of_mem_filter hp
          simp only [decide_eq_true_eq] at this
          exact this hEq
      rw [this, if_pos rfl]
    · rw [find?_filter_of_imp (fun p hp => by
        simp only [decide_eq_true_eq] at hp ⊢
        rw [hp]; exact hq), find?_items_get h, if_neg hq]
      cases get_value t q <;> rfl

theorem remove_err {t : Tree α β} {key : α} :
    remove t key = .error .keyError ↔ contains t key = false := by
  rw [remove]
  split_ifs with hc <;> simp [hc]

/-- The descent `while node.left is not None: node = node.left` starting from a
    node holding item `(k, v)` whose left subtree is the first argument. -/
def leftmostItem : Tree α β → α × β → α × β
  | .nil, d => d
  | .node l k v _, _ => leftmostItem l (k, v)

/-- The descent `while node.right is not None: node = node.right`. -/
def rightmostItem : Tree α β → α × β → α × β
  | .nil, d => d
  | .node _ k v r, _ => rightmostItem r (k, v)

/-- ABCTree.min_item: ValueError when count is zero, else the leftmost item. -/
def min_item : Tree α β → Except PyError (α × β)
  | .nil => .error .valueError
  | .node l k v _ => .ok (leftmostItem l (k, v))

/-- ABCTree.max_item: ValueError when count is zero, else the rightmost item. -/
def max_item : Tree α β → Except PyError (α × β)
  | .nil => .error .valueError
  | .node _ k v r => .ok (rightmostItem r (k, v))

/-- ABCTree._next_item instantiated for succ_item (child selectors left/right,
    comparison `<`); the descent loop is structural recursion and the running
    successor candidate node is carried as `sc`. -/
def succ_item_loop : Tree α β → α → Option (α × β) → Except PyError (α × β)
  | .nil, _, _ => .error .keyError
  | .node l k v r, key, sc =>
    if key = k then
      match r with
      | .nil =>
        match sc with
        | none => .error .keyError
        | some p => .ok p
      | .node rl rk rv _ =>
        let m := leftmostItem rl (rk, rv)
        match sc with
        | none => .ok m
        | some p => .ok (if m.1 < p.1 then m else p)
    else if key < k then
      succ_item_loop l key
        (match sc with
          | none => some (k, v)
          | some p => some (if k < p.1 then (k, v) else p))
    else succ_item_loop r key sc

/-- ABCTree._next_item instantiated for prev_item: the selectors passed for
    left and right are swapped (attrgetter right and left) and the comparison
    is `>`. -/
def prev_item_loop : Tree α β → α → Option (α × β) → Except PyError (α × β)
  | .nil, _, _ => .error .keyError
  | .node l k v r, key, sc =>
    if key = k then
      match l with
      | .nil =>
        match sc with
        | none => .error .keyError
        | some p => .ok p
      | .node _ lk lv lr =>
        let m := rightmostItem lr (lk, lv)
        match sc with
        | none => .ok m
        | some p => .ok (if m.1 > p.1 then m else p)
    else if key > k then
      prev_item_loop r key
        (match sc with
          | none => some (k, v)
          | some p => some (if k > p.1 then (k, v) else p))
    else prev_item_loop l key sc

/-- ABCTree.succ_item: KeyError on the empty tree, else ABCTree._next_item. -/
def succ_item (t : Tree α β) (key : α) : Except PyError (α × β) :=
  match t with
  | .nil => .error .keyError
  | .node _ _ _ _ => succ_item_loop t key none

/-- ABCTree.prev_item: KeyError on the empty tree, else ABCTree._next_item
    with the swapped selectors. -/
def prev_item (t : Tree α β) (key : α) : Except PyError (α × β) :=
  match t with
  | .nil => .error .keyError
  | .node _ _ _ _ => prev_item_loop t key none

/-- ABCTree.floor_item: descend, short-circuit on an exact match, record the
    largest node passed while turning right in `pr`. -/
def floor_item_loop : Tree α β → α → Option (α × β) → Except PyError (α × β)
  | .nil, _, pr =>
    match pr with
    | some p => .ok p
    | none => .error .keyError
  | .node l k v r, key, pr =>
    if key = k then .ok (k, v)
    else if key < k then floor_item_loop l key pr
    else floor_item_loop r key
      (match pr with
        | none => some (k, v)
        | some p => some (if k > p.1 then (k, v) else p))

def floor_item (t : Tree α β) (key : α) : Except PyError (α × β) :=
  floor_item_loop t key none

/-- ABCTree.ceiling_item: mirror of floor_item, records the smallest node
    passed while turning left. -/
def ceiling_item_loop : Tree α β → α → Option (α × β) → Except PyError (α × β)
  | .nil, _, sc =>
    match sc with
    | some p => .ok p
    | none => .error .keyError
  | .node l k v r, key, sc =>
    if key = k then .ok (k, v)
    else if key > k then ceiling_item_loop r key sc
    else ceiling_item_loop l key
      (match sc with
        | none => some (k, v)
        | some p => some (if k < p.1 then (k, v) else p))

def ceiling_item (t : Tree α β) (key : α) : Except PyError (α × β) :=
  ceiling_item_loop t key none

/-- Candidate update rule of `_next_item` for succ: keep the smaller key. -/
def bestLt : Option (α × β) → α × β → α × β
  | none, m => m
  | some p, m => if m.1 < p.1 then m else p

/-- Candidate update rule for prev and floor: keep the larger key. -/
def bestGt : Option (α × β) → α × β → α × β
  | none, m => m
  | some p, m => if m.1 > p.1 then m else p

def mergeLt (sc : Option (α × β)) : Option (α × β) → Option (α × β)
  | none => sc
  | some m => some (bestLt sc m)

def mergeGt (sc : Option (α × β)) : Option (α × β) → Option (α × β)
  | none => sc
  | some m => some (bestGt sc m)

/-- Wraps an optional result, a missing one being a KeyError. -/
def ofOpt : Option (α × β) → Except PyError (α × β)
  | none => .error .keyError
  | some p => .ok p

/-- Specification value: the first item of the ascending item list whose key
    lies strictly above `key` — the successor item. -/
def tSucc (t : Tree α β) (key : α) : Option (α × β) :=
  (itemsList t).find? fun p => decide (key < p.1)

/-- Specification value: the predecessor item. -/
def tPrev (t : Tree α β) (key : α) : Option (α × β) :=
  (itemsList t).reverse.find? fun p => decide (p.1 < key)

/-- Specification value: the floor item (greatest key at most `key`). -/
def tFloor (t : Tree α β) (key : α) : Option (α × β) :=
  (itemsList t).reverse.find? fun p => decide (p.1 ≤ key)

/-- Specification value: the ceiling item (smallest key at least `key`). -/
def tCeil (t : Tree α β) (key : α) : Option (α × β) :=
  (itemsList t).find? fun p => decide (key ≤ p.1)

theorem leftmostItem_head (l : Tree α β) (k : α) (v : β) (X : List (α × β)) :
    (itemsList l ++ (k, v) :: X).head? = some (leftmostItem l (k, v)) := by
  induction l generalizing k v X with
  | nil => rfl
  | node ll lk lv lr ih =>
    rw [itemsList, List.append_assoc, List.cons_append]
    rw [ih lk lv (itemsList lr ++ (k, v) :: X)]
    rfl

theorem rightmostItem_last (r : Tree α β) (k : α) (v : β) (X : List (α × β)) :
    (X ++ (k, v) :: itemsList r).getLast? = some (rightmostItem r (k, v)) := by
  induction r generalizing k v X with
  | nil => simp [itemsList, rightmostItem]
  | node rl rk rv rr ihl ihr =>
    rw [itemsList, rightmostItem]
    rw [show X ++ (k, v) :: (itemsList rl ++ (rk, rv) :: itemsList rr)
        = (X ++ (k, v) :: itemsList rl) ++ (rk, rv) :: itemsList rr by simp]
    exact ihr rk rv _

theorem find?_eq_head_of_all {γ : Type} {l : List γ} {P : γ → Bool}
    (h : ∀ p ∈ l, P p = true) : l.find? P = l.head? := by
  cases l with
  | nil => rfl
  | cons a l => exact List.find?_cons_of_pos _ (h a (List.mem_cons_self a l)) ▸ rfl

theorem bestLt_absorb (sc : Option (α × β)) (c m : α × β) (h : m.1 < c.1) :
    bestLt (some (bestLt sc c)) m = bestLt sc m := by
  cases sc with
  | none => simp [bestLt, h]
  | some p =>
    by_cases h1 : c.1 < p.1
    · simp [bestLt, h1, h, lt_trans h h1]
    · simp [bestLt, h1]

theorem bestGt_absorb (sc : Option (α × β)) (c m : α × β) (h : c.1 < m.1) :
    bestGt (some (bestGt sc c)) m = bestGt sc m := by
  cases sc with
  | none => simp [bestGt, h]
  | some p =>
    by_cases h1 : c.1 > p.1
    · simp [bestGt, h1, h, lt_trans h1 h]
    · simp [bestGt, h1]

theorem mergeLt_none (o : Option (α × β)) : mergeLt none o = o := by
  cases o <;> rfl

theorem mergeGt_none (o : Option (α × β)) : mergeGt none o = o := by
  cases o <;> rfl

theorem candLt_eq (sc : Option (α × β)) (k : α) (v : β) :
    (match sc with
      | none => some (k, v)
      | some p => some (if k < p.1 then (k, v) else p)) = mergeLt sc (some (k, v)) := by
  cases sc <;> rfl

theorem candGt_eq (sc : Option (α × β)) (k : α) (v : β) :
    (match sc with
      | none => some (k, v)
      | some p => some (if k > p.1 then (k, v) else p)) = mergeGt sc (some (k, v)) := by
  cases sc <;> rfl

theorem succ_loop_notMem {t : Tree α β} {key : α} (hk : key ∉ keysList t)
    (sc : Option (α × β)) : succ_item_loop t key sc = .error .keyError := by
  induction t generalizing sc with
  | nil => rfl
  | node l k v r ihl ihr =>
    rw [keysList_node] at hk
    simp only [List.mem_append, List.mem_cons] at hk
    push_neg at hk
    obtain ⟨hkl, hkk, hkr⟩ := hk
    simp only [succ_item_loop]
    rw [if_neg hkk]
    by_cases h1 : key < k
    · rw [if_pos h1]
      exact ihl hkl _
    · rw [if_neg h1]
      exact ihr hkr sc

theorem succ_loop_eq {t : Tree α β} {key : α} :
    BST t → key ∈ keysList t → ∀ sc : Option (α × β),
    succ_item_loop t key sc = ofOpt (mergeLt sc (tSucc t key)) := by
  induction t with
  | nil =>
    intro _ hk
    simp [keysList, itemsList] at hk
  | node l k v r ihl ihr =>
    intro hb hk sc
    obtain ⟨hl, hr, bl, br⟩ := hb
    have hts : tSucc (Tree.node l k v r) key
        = ((itemsList l).find? (fun p => decide (key < p.1))).or
            (if key < k then some (k, v)
             else (itemsList r).find? (fun p => decide (key < p.1))) := by
      rw [tSucc, itemsList, List.find?_append]
      congr 1
      by_cases hkk : key < k
      · rw [List.find?_cons_of_pos _ (by simpa using hkk), if_pos hkk]
      · rw [List.find?_cons_of_neg _ (by simpa using hkk), if_neg hkk]
    rcases lt_trichotomy key k with hlt | rfl | hgt
    · -- descend left: the current node becomes a successor candidate
      have hkl : key ∈ keysList l := by
        rw [keysList_node] at hk
        rcases List.mem_append.mp hk with hm | hm
        · exact hm
        · rcases List.mem_cons.mp hm with rfl | hm'
          · exact absurd hlt (lt_irrefl key)
          · exact absurd (hr key hm') (not_lt_of_gt hlt)
      simp only [succ_item_loop]
      rw [if_neg (ne_of_lt hlt), if_pos hlt]
      have hsc' : (match sc with
          | none => some (k, v)
          | some p => some (if k < p.1 then (k, v) else p)) = mergeLt sc (some (k, v)) := by
        cases sc <;> rfl
      rw [hsc', ihl bl hkl]
      congr 1
      rw [hts, if_pos hlt]
      rw [show (itemsList l).find? (fun p => decide (key < p.1)) = tSucc l key from rfl]
      cases htl : tSucc l key with
      | none => rfl
      | some m =>
        have hmk : m.1 < k := hl m.1
          (List.mem_map_of_mem Prod.fst (List.mem_of_find?_eq_some htl))
        show mergeLt (mergeLt sc (some (k, v))) (some m) = mergeLt sc (some m)
        simp only [mergeLt]
        rw [bestLt_absorb sc (k, v) m hmk]
    · -- exact match
      have hfl : (itemsList l).find? (fun p => decide (key < p.1)) = none :=
        List.find?_eq_none.mpr fun p hp => by
          simpa using not_lt_of_gt (hl p.1 (List.mem_map_of_mem Prod.fst hp))
      cases r with
      | nil =>
        have hts0 : tSucc (Tree.node l key v .nil) key = none := by
          rw [hts, hfl, if_neg (lt_irrefl key)]
          rfl
        rw [hts0]
        simp only [succ_item_loop, if_pos rfl]
        cases sc <;> rfl
      | node rl rk rv rr =>
        have hall : ∀ p ∈ itemsList (Tree.node rl rk rv rr),
            (fun p => decide (key < p.1)) p = true := fun p hp => by
          simpa using hr p.1 (List.mem_map_of_mem Prod.fst hp)
        have hts1 : tSucc (Tree.node l key v (Tree.node rl rk rv rr)) key
            = some (leftmostItem rl (rk, rv)) := by
          rw [hts, hfl, if_neg (lt_irrefl key), find?_eq_head_of_all hall]
          rw [show itemsList (Tree.node rl rk rv rr)
                = itemsList rl ++ (rk, rv) :: itemsList rr from rfl]
          rw [leftmostItem_head]
          rfl
        rw [hts1]
        simp only [succ_item_loop, if_pos rfl]
        cases sc <;> rfl
    · -- descend right: candidate unchanged
      have hkr : key ∈ keysList r := by
        rw [keysList_node] at hk
        rcases List.mem_append.mp hk with hm | hm
        · exact absurd (hl key hm) (not_lt_of_gt hgt)
        · rcases List.mem_cons.mp hm with rfl | hm'
          · exact absurd hgt (lt_irrefl key)
          · exact hm'
      simp only [succ_item_loop]
      rw [if_neg (ne_of_gt hgt), if_neg (not_lt_of_gt hgt), ihr br hkr sc]
      congr 1
      rw [hts, if_neg (not_lt_of_gt hgt)]
      have hfl : (itemsList l).find? (fun p => decide (key < p.1)) = none :=
        List.find?_eq_none.mpr fun p hp => by
          simpa using not_lt_of_gt (lt_trans (hl p.1 (List.mem_map_of_mem Prod.fst hp)) hgt)
      rw [hfl]
      rfl

/-- Successor characterization: on a BST holding the key, succ_item returns
    the first in-order item whose key is strictly larger. -/
theorem succ_item_eq {t : Tree α β} (h : BST t) {key : α} (hk : key ∈ keysList t) :
    succ_item t key = ofOpt (tSucc t key) := by
  cases t with
  | nil => simp [keysList, itemsList] at hk
  | node l k v r =>
    show succ_item_loop _ key none = _
    rw [succ_loop_eq h hk none, mergeLt_none]

theorem succ_item_err {t : Tree α β} {key : α} (hk : key ∉ keysList t) :
    succ_item t key = .error .keyError := by
  cases t with
  | nil => rfl
  | node l k v r => exact succ_loop_notMem hk none

theorem prev_loop_notMem {t : Tree α β} {key : α} (hk : key ∉ keysList t)
    (sc : Option (α × β)) : prev_item_loop t key sc = .error .keyError := by
  induction t generalizing sc with
  | nil => rfl
  | node l k v r ihl ihr =>
    rw [keysList_node] at hk
    simp only [List.mem_append, List.mem_cons] at hk
    push_neg at hk
    obtain ⟨hkl, hkk, hkr⟩ := hk
    simp only [prev_item_loop]
    rw [if_neg hkk]
    by_cases h1 : key > k
    · rw [if_pos h1]
      exact ihr hkr _
    · rw [if_neg h1]
      exact ihl hkl sc

theorem prev_loop_eq {t : Tree α β} {key : α} :
    BST t → key ∈ keysList t → ∀ sc : Option (α × β),
    prev_item_loop t key sc = ofOpt (mergeGt sc (tPrev t key)) := by
  induction t with
  | nil =>
    intro _ hk
    simp [keysList, itemsList] at hk
  | node l k v r ihl ihr =>
    intro hb hk sc
    obtain ⟨hl, hr, bl, br⟩ := hb
    have hts : tPrev (Tree.node l k v r) key
        = ((itemsList r).reverse.find? (fun p => decide (p.1 < key))).or
            (if k < key then some (k, v)
             else (itemsList l).reverse.find? (fun p => decide (p.1 < key))) := by
      rw [tPrev, show (itemsList (Tree.node l k v r)).reverse
          = (itemsList r).reverse ++ (k, v) :: (itemsList l).reverse by simp [itemsList],
        List.find?_append]
      congr 1
      by_cases hkk : k < key
      · rw [List.find?_cons_of_pos _ (by simpa using hkk), if_pos hkk]
      · rw [List.find?_cons_of_neg _ (by simpa using hkk), if_neg hkk]
    rcases lt_trichotomy key k with hlt | rfl | hgt
    · -- descend left: candidate unchanged
      have hkl : key ∈ keysList l := by
        rw [keysList_node] at hk
        rcases List.mem_append.mp hk with hm | hm
        · exact hm
        · rcases List.mem_cons.mp hm with rfl | hm'
          · exact absurd hlt (lt_irrefl key)
          · exact absurd (hr key hm') (not_lt_of_gt hlt)
      simp only [prev_item_loop]
      rw [if_neg (ne_of_lt hlt), if_neg (lt_asymm hlt), ihl bl hkl sc]
      congr 1
      rw [hts, if_neg (lt_asymm hlt)]
      have hfr : (itemsList r).reverse.find? (fun p => decide (p.1 < key)) = none :=
        List.find?_eq_none.mpr fun p hp => by
          have hp' : p ∈ itemsList r := List.mem_reverse.mp hp
          simpa using
            not_lt_of_gt (lt_trans hlt (hr p.1 (List.mem_map_of_mem Prod.fst hp')))
      rw [hfr]
      rfl
    · -- exact match
      have hfr : (itemsList r).reverse.find? (fun p => decide (p.1 < key)) = none :=
        List.find?_eq_none.mpr fun p hp => by
          have hp' : p ∈ itemsList r := List.mem_reverse.mp hp
          simpa using not_lt_of_gt (hr p.1 (List.mem_map_of_mem Prod.fst hp'))
      cases l with
      | nil =>
        have hts0 : tPrev (Tree.node .nil key v r) key = none := by
          rw [hts, hfr, if_neg (lt_irrefl key)]
          rfl
        rw [hts0]
        simp only [prev_item_loop, if_pos rfl]
        cases sc <;> rfl
      | node ll lk lv lr =>
        have hall : ∀ p ∈ (itemsList (Tree.node ll lk lv lr)).reverse,
            (fun p => decide (p.1 < key)) p = true := fun p hp => by
          have hp' : p ∈ itemsList (Tree.node ll lk lv lr) := List.mem_reverse.mp hp
          simpa using hl p.1 (List.mem_map_of_mem Prod.fst hp')
        have hts1 : tPrev (Tree.node (Tree.node ll lk lv lr) key v r) key
            = some (rightmostItem lr (lk, lv)) := by
          rw [hts, hfr, if_neg (lt_irrefl key), find?_eq_head_of_all hall,
            List.head?_reverse]
          rw [show itemsList (Tree.node ll lk lv lr)
              = itemsList ll ++ (lk, lv) :: itemsList lr from rfl]
          rw [rightmostItem_last]
          rfl
        rw [hts1]
        simp only [prev_item_loop, if_pos rfl]
        cases sc <;> rfl
    · -- descend right: the current node becomes a predecessor candidate
      have hkr : key ∈ keysList r := by
        rw [keysList_node] at hk
        rcases List.mem_append.mp hk with hm | hm
        · exact absurd (hl key hm) (not_lt_of_gt hgt)
        · rcases List.mem_cons.mp hm with rfl | hm'
          · exact absurd hgt (lt_irrefl key)
          · exact hm'
      simp only [prev_item_loop]
      rw [if_neg (ne_of_gt hgt), if_pos hgt]
      have hsc' : (match sc with
          | none => some (k, v)
          | some p => some (if k > p.1 then (k, v) else p)) = mergeGt sc (some (k, v)) := by
        cases sc <;> rfl
      rw [hsc', ihr br hkr]
      congr 1
      rw [hts, if_pos hgt]
      rw [show (itemsList r).reverse.find? (fun p => decide (p.1 < key)) = tPrev r key from rfl]
      cases htr : tPrev r key with
      | none => rfl
      | some m =>
        have hmr : m ∈ itemsList r :=
          List.mem_reverse.mp (List.mem_of_find?_eq_some htr)
        have hmk : k < m.1 := hr m.1 (List.mem_map_of_mem Prod.fst hmr)
        show mergeGt (mergeGt sc (some (k, v))) (some m) = mergeGt sc (some m)
        simp only [mergeGt]
        rw [bestGt_absorb sc (k, v) m hmk]

/-- Predecessor characterization: on a BST holding the key, prev_item returns
    the last in-order item whose key is strictly smaller. -/
theorem prev_item_eq {t : Tree α β} (h : BST t) {key : α} (hk : key ∈ keysList t) :
    prev_item t key = ofOpt (tPrev t key) := by
  cases t with
  | nil => simp [keysList, itemsList] at hk
  | node l k v r =>
    show prev_item_loop _ key none = _
    rw [prev_loop_eq h hk none, mergeGt_none]

theorem prev_item_err {t : Tree α β} {key : α} (hk : key ∉ keysList t) :
    prev_item t key = .error .keyError := by
  cases t with
  | nil => rfl
  | node l k v r => exact prev_loop_notMem hk none

theorem floor_loop_eq {t : Tree α β} {key : α} :
    BST t → ∀ pr : Option (α × β),
    (∀ p, pr = some p → ∀ x ∈ keysList t, p.1 < x) →
    floor_item_loop t key pr = ofOpt (mergeGt pr (tFloor t key)) := by
  induction t with
  | nil =>
    intro _ pr _
    cases pr <;> rfl
  | node l k v r ihl ihr =>
    intro hb pr hacc
    obtain ⟨hl, hr, bl, br⟩ := hb
    have hkmem : k ∈ keysList (Tree.node l k v r) := by
      rw [keysList_node]
      simp
    have hts : tFloor (Tree.node l k v r) key
        = ((itemsList r).reverse.find? (fun p => decide (p.1 ≤ key))).or
            (if k ≤ key then some (k, v)
             else (itemsList l).reverse.find? (fun p => decide (p.1 ≤ key))) := by
      rw [tFloor, show (itemsList (Tree.node l k v r)).reverse
          = (itemsList r).reverse ++ (k, v) :: (itemsList l).reverse by simp [itemsList],
        List.find?_append]
      congr 1
      by_cases hkk : k ≤ key
      · rw [List.find?_cons_of_pos _ (by simpa using hkk), if_pos hkk]
      · rw [List.find?_cons_of_neg _ (by simpa using hkk), if_neg hkk]
    rcases lt_trichotomy key k with hlt | rfl | hgt
    · -- key below the node: descend left, candidate unchanged
      simp only [floor_item_loop]
      rw [if_neg (ne_of_lt hlt), if_pos hlt,
        ihl bl pr (fun p hp x hx => hacc p hp x (by rw [keysList_node]; simp [hx]))]
      congr 1
      rw [hts, if_neg (not_le_of_lt hlt)]
      have hfr : (itemsList r).reverse.find? (fun p => decide (p.1 ≤ key)) = none :=
        List.find?_eq_none.mpr fun p hp => by
          have hp' : p ∈ itemsList r := List.mem_reverse.mp hp
          simpa using
            not_le_of_lt (lt_trans hlt (hr p.1 (List.mem_map_of_mem Prod.fst hp')))
      rw [hfr]
      rfl
    · -- exact match: short-circuit
      simp only [floor_item_loop, if_pos rfl]
      have hfr : (itemsList r).reverse.find? (fun p => decide (p.1 ≤ key)) = none :=
        List.find?_eq_none.mpr fun p hp => by
          have hp' : p ∈ itemsList r := List.mem_reverse.mp hp
          simpa using not_le_of_lt (hr p.1 (List.mem_map_of_mem Prod.fst hp'))
      have hts1 : tFloor (Tree.node l key v r) key = some (key, v) := by
        rw [hts, hfr, if_pos (le_refl key)]
        rfl
      rw [hts1]
      cases pr with
      | none => rfl
      | some p =>
        have hpk : p.1 < key := hacc p rfl key hkmem
        show Except.ok (key, v) = ofOpt (some (bestGt (some p) (key, v)))
        simp [bestGt, hpk, ofOpt]
    · -- key above the node: the node becomes a floor candidate, descend right
      simp only [floor_item_loop]
      rw [if_neg (ne_of_gt hgt), if_neg (lt_asymm hgt)]
      have hacc' : ∀ p, mergeGt pr (some (k, v)) = some p → ∀ x ∈ keysList r, p.1 < x := by
        intro p hp x hx
        cases pr with
        | none =>
          obtain rfl := Option.some_inj.mp hp
          exact hr x hx
        | some q =>
          obtain rfl := Option.some_inj.mp hp
          by_cases hq : k > q.1
          · simpa [bestGt, hq] using hr x hx
          · have : q.1 < x := hacc q rfl x (by rw [keysList_node]; simp [hx])
            simpa [bestGt, hq] using this
      rw [candGt_eq, ihr br _ hacc']
      congr 1
      rw [hts, if_pos (le_of_lt hgt)]
      rw [show (itemsList r).reverse.find? (fun p => decide (p.1 ≤ key)) = tFloor r key
        from rfl]
      cases htr : tFloor r key with
      | none => rfl
      | some m =>
        have hmr : m ∈ itemsList r :=
          List.mem_reverse.mp (List.mem_of_find?_eq_some htr)
        have hmk : k < m.1 := hr m.1 (List.mem_map_of_mem Prod.fst hmr)
        show mergeGt (mergeGt pr (some (k, v))) (some m) = mergeGt pr (some m)
        simp only [mergeGt]
        rw [bestGt_absorb pr (k, v) m hmk]

/-- Floor characterization: floor_item returns the last in-order item whose
    key is at most the argument. -/
theorem floor_item_eq {t : Tree α β} (h : BST t) (key : α) :
    floor_item t key = ofOpt (tFloor t key) := by
  rw [floor_item, floor_loop_eq h none (fun p hp => by cases hp), mergeGt_none]

theorem ceiling_loop_eq {t : Tree α β} {key : α} :
    BST t → ∀ sc : Option (α × β),
    (∀ p, sc = some p → ∀ x ∈ keysList t, x < p.1) →
    ceiling_item_loop t key sc = ofOpt (mergeLt sc (tCeil t key)) := by
  induction t with
  | nil =>
    intro _ sc _
    cases sc <;> rfl
  | node l k v r ihl ihr =>
    intro hb sc hacc
    obtain ⟨hl, hr, bl, br⟩ := hb
    have hkmem : k ∈ keysList (Tree.node l k v r) := by
      rw [keysList_node]
      simp
    have hts : tCeil (Tree.node l k v r) key
        = ((itemsList l).find? (fun p => decide (key ≤ p.1))).or
            (if key ≤ k then some (k, v)
             else (itemsList r).find? (fun p => decide (key ≤ p.1))) := by
      rw [tCeil, itemsList, List.find?_append]
      congr 1
      by_cases hkk : key ≤ k
      · rw [List.find?_cons_of_pos _ (by simpa using hkk), if_pos hkk]
      · rw [List.find?_cons_of_neg _ (by simpa using hkk), if_neg hkk]
    rcases lt_trichotomy key k with hlt | rfl | hgt
    · -- key below the node: the node becomes a ceiling candidate, descend left
      simp only [ceiling_item_loop]
      rw [if_neg (ne_of_lt hlt), if_neg (lt_asymm hlt)]
      have hacc' : ∀ p, mergeLt sc (some (k, v)) = some p → ∀ x ∈ keysList l, x < p.1 := by
        intro p hp x hx
        cases sc with
        | none =>
          obtain rfl := Option.some_inj.mp hp
          exact hl x hx
        | some q =>
          obtain rfl := Option.some_inj.mp hp
          by_cases hq : k < q.1
          · simpa [bestLt, hq] using hl x hx
          · have : x < q.1 := hacc q rfl x (by rw [keysList_node]; simp [hx])
            simpa [bestLt, hq] using this
      rw [candLt_eq, ihl bl _ hacc']
      congr 1
      rw [hts, if_pos (le_of_lt hlt)]
      rw [show (itemsList l).find? (fun p => decide (key ≤ p.1)) = tCeil l key from rfl]
      cases htl : tCeil l key with
      | none => rfl
      | some m =>
        have hmk : m.1 < k := hl m.1
          (List.mem_map_of_mem Prod.fst (List.mem_of_find?_eq_some htl))
        show mergeLt (mergeLt sc (some (k, v))) (some m) = mergeLt sc (some m)
        simp only [mergeLt]
        rw [bestLt_absorb sc (k, v) m hmk]
    · -- exact match: short-circuit
      simp only [ceiling_item_loop, if_pos rfl]
      have hfl : (itemsList l).find? (fun p => decide (key ≤ p.1)) = none :=
        List.find?_eq_none.mpr fun p hp => by
          simpa using not_le_of_lt (hl p.1 (List.mem_map_of_mem Prod.fst hp))
      have hts1 : tCeil (Tree.node l key v r) key = some (key, v) := by
        rw [hts, hfl, if_pos (le_refl key)]
        rfl
      rw [hts1]
      cases sc with
      | none => rfl
      | some p =>
        have hpk : key < p.1 := hacc p rfl key hkmem
        show Except.ok (key, v) = ofOpt (some (bestLt (some p) (key, v)))
        simp [bestLt, hpk, ofOpt]
    · -- key above the node: descend right, candidate unchanged
      simp only [ceiling_item_loop]
      rw [if_neg (ne_of_gt hgt), if_pos hgt,
        ihr br sc (fun p hp x hx => hacc p hp x (by rw [keysList_node]; simp [hx]))]
      congr 1
      rw [hts, if_neg (not_le_of_lt hgt)]
      have hfl : (itemsList l).find? (fun p => decide (key ≤ p.1)) = none :=
        List.find?_eq_none.mpr fun p hp => by
          simpa using
            not_le_of_lt (lt_trans (hl p.1 (List.mem_map_of_mem Prod.fst hp)) hgt)
      rw [hfl]
      rfl

/-- Ceiling characterization: ceiling_item returns the first in-order item
    whose key is at least the argument. -/
theorem ceiling_item_eq {t : Tree α β} (h : BST t) (key : α) :
    ceiling_item t key = ofOpt (tCeil t key) := by
  rw [ceiling_item, ceiling_loop_eq h none (fun p hp => by cases hp), mergeLt_none]

theorem ofOpt_ok_iff {o : Option (α × β)} {m : α × β} : ofOpt o = .ok m ↔ o = some m := by
  cases o <;> simp [ofOpt]

theorem ofOpt_err_iff {o : Option (α × β)} : ofOpt o = .error .keyError ↔ o = none := by
  cases o <;> simp [ofOpt]

theorem find?_sorted_asc {l : List (α × β)} (hs : l.Pairwise (fun p q => p.1 < q.1))
    {P : α × β → Bool} {m : α × β} :
    l.find? P = some m ↔ m ∈ l ∧ P m = true ∧ ∀ q ∈ l, P q = true → m.1 ≤ q.1 := by
  induction l with
  | nil => simp
  | cons a l ih =>
    obtain ⟨ha, htl⟩ := List.pairwise_cons.mp hs
    by_cases hPa : P a = true
    · rw [List.find?_cons_of_pos _ hPa]
      constructor
      · intro hm
        obtain rfl := Option.some_inj.mp hm
        refine ⟨List.mem_cons_self a l, hPa, fun q hq _ => ?_⟩
        rcases List.mem_cons.mp hq with rfl | hq'
        · exact le_refl _
        · exact le_of_lt (ha q hq')
      · rintro ⟨hm, hPm, hmin⟩
        rcases List.mem_cons.mp hm with rfl | hm'
        · rfl
        · exact absurd (hmin a (List.mem_cons_self a l) hPa)
            (not_le_of_lt (ha m hm'))
    · rw [List.find?_cons_of_neg _ (by simpa using hPa)]
      rw [ih htl]
      constructor
      · rintro ⟨hm, hPm, hmin⟩
        refine ⟨List.mem_cons_of_mem a hm, hPm, fun q hq hPq => ?_⟩
        rcases List.mem_cons.mp hq with rfl | hq'
        · exact absurd hPq hPa
        · exact hmin q hq' hPq
      · rintro ⟨hm, hPm, hmin⟩
        rcases List.mem_cons.mp hm with rfl | hm'
        · exact absurd hPm hPa
        · exact ⟨hm', hPm, fun q hq hPq => hmin q (List.mem_cons_of_mem a hq) hPq⟩

theorem find?_sorted_desc {l : List (α × β)} (hs : l.Pairwise (fun p q => q.1 < p.1))
    {P : α × β → Bool} {m : α × β} :
    l.find? P = some m ↔ m ∈ l ∧ P m = true ∧ ∀ q ∈ l, P q = true → q.1 ≤ m.1 := by
  induction l with
  | nil => simp
  | cons a l ih =>
    obtain ⟨ha, htl⟩ := List.pairwise_cons.mp hs
    by_cases hPa : P a = true
    · rw [List.find?_cons_of_pos _ hPa]
      constructor
      · intro hm
        obtain rfl := Option.some_inj.mp hm
        refine ⟨List.mem_cons_self a l, hPa, fun q hq _ => ?_⟩
        rcases List.mem_cons.mp hq with rfl | hq'
        · exact le_refl _
        · exact le_of_lt (ha q hq')
      · rintro ⟨hm, hPm, hmin⟩
        rcases List.mem_cons.mp hm with rfl | hm'
        · rfl
        · exact absurd (hmin a (List.mem_cons_self a l) hPa)
            (not_le_of_lt (ha m hm'))
    · rw [List.find?_cons_of_neg _ (by simpa using hPa)]
      rw [ih htl]
      constructor
      · rintro ⟨hm, hPm, hmin⟩
        refine ⟨List.mem_cons_of_mem a hm, hPm, fun q hq hPq => ?_⟩
        rcases List.mem_cons.mp hq with rfl | hq'
        · exact absurd hPq hPa
        · exact hmin q hq' hPq
      · rintro ⟨hm, hPm, hmin⟩
        rcases List.mem_cons.mp hm with rfl | hm'
        · exact absurd hPm hPa
        · exact ⟨hm', hPm, fun q hq hPq => hmin q (List.mem_cons_of_mem a hq) hPq⟩

theorem items_pairwise_rev {t : Tree α β} (h : BST t) :
    (itemsList t).reverse.Pairwise (fun p q => q.1 < p.1) :=
  List.pairwise_reverse.mpr (items_pairwise h)

/-- The successful succ_item answer is exactly the minimal strictly-larger
    item. -/
theorem succ_item_ok_iff {t : Tree α β} (h : BST t) {key : α} (hk : key ∈ keysList t)
    {m : α × β} :
    succ_item t key = .ok m ↔
      m ∈ itemsList t ∧ key < m.1 ∧ ∀ q ∈ itemsList t, key < q.1 → m.1 ≤ q.1 := by
  rw [succ_item_eq h hk, ofOpt_ok_iff, tSucc, find?_sorted_asc (items_pairwise h)]
  simp

/-- The successful prev_item answer is exactly the maximal strictly-smaller
    item. -/
theorem prev_item_ok_iff {t : Tree α β} (h : BST t) {key : α} (hk : key ∈ keysList t)
    {m : α × β} :
    prev_item t key = .ok m ↔
      m ∈ itemsList t ∧ m.1 < key ∧ ∀ q ∈ itemsList t, q.1 < key → q.1 ≤ m.1 := by
  rw [prev_item_eq h hk, ofOpt_ok_iff, tPrev, find?_sorted_desc (items_pairwise_rev h)]
  simp

/-- The successful floor_item answer is exactly the maximal item with key at
    most the argument. -/
theorem floor_item_ok_iff {t : Tree α β} (h : BST t) (key : α) {m : α × β} :
    floor_item t key = .ok m ↔
      m ∈ itemsList t ∧ m.1 ≤ key ∧ ∀ q ∈ itemsList t, q.1 ≤ key → q.1 ≤ m.1 := by
  rw [floor_item_eq h, ofOpt_ok_iff, tFloor, find?_sorted_desc (items_pairwise_rev h)]
  simp

/-- The successful ceiling_item answer is exactly the minimal item with key at
    least the argument. -/
theorem ceiling_item_ok_iff {t : Tree α β} (h : BST t) (key : α) {m : α × β} :
    ceiling_item t key = .ok m ↔
      m ∈ itemsList t ∧ key ≤ m.1 ∧ ∀ q ∈ itemsList t, key ≤ q.1 → m.1 ≤ q.1 := by
  rw [ceiling_item_eq h, ofOpt_ok_iff, tCeil, find?_sorted_asc (items_pairwise h)]
  simp

/-- Failure characterization of succ_item over a BST: KeyError exactly when
    the key is absent or maximal. -/
theorem succ_item_err_iff {t : Tree α β} (h : BST t) (key : α) :
    succ_item t key = .error .keyError ↔
      key ∉ keysList t ∨ ∀ x ∈ keysList t, x ≤ key := by
  by_cases hk : key ∈ keysList t
  · rw [succ_item_eq h hk, ofOpt_err_iff, tSucc, List.find?_eq_none]
    constructor
    · intro hall
      refine Or.inr fun x hx => ?_
      obtain ⟨⟨x', v⟩, hm, rfl⟩ := List.mem_map.mp hx
      simpa using hall _ hm
    · rintro (habs | hall)
      · exact absurd hk habs
      · intro p hp
        simpa using hall p.1 (List.mem_map_of_mem Prod.fst hp)
  · simp only [succ_item_err hk, true_iff]
    exact Or.inl hk

/-- Failure characterization of prev_item over a BST: KeyError exactly when
    the key is absent or minimal. -/
theorem prev_item_err_iff {t : Tree α β} (h : BST t) (key : α) :
    prev_item t key = .error .keyError ↔
      key ∉ keysList t ∨ ∀ x ∈ keysList t, key ≤ x := by
  by_cases hk : key ∈ keysList t
  · rw [prev_item_eq h hk, ofOpt_err_iff, tPrev, List.find?_eq_none]
    constructor
    · intro hall
      refine Or.inr fun x hx => ?_
      obtain ⟨⟨x', v⟩, hm, rfl⟩ := List.mem_map.mp hx
      simpa using hall _ (List.mem_reverse.mpr hm)
    · rintro (habs | hall)
      · exact absurd hk habs
      · intro p hp
        simpa using hall p.1 (List.mem_map_of_mem Prod.fst (List.mem_reverse.mp hp))
  · simp only [prev_item_err hk, true_iff]
    exact Or.inl hk

/-- Model of `attrgetter("left")` applied to a node. -/
def leftSel : Tree α β → Tree α β
  | .nil => .nil
  | .node l _ _ _ => l

/-- Model of `attrgetter("right")` applied to a node. -/
def rightSel : Tree α β → Tree α β
  | .nil => .nil
  | .node _ _ _ r => r

/-- The stack loop of ABCTree._iter_items, generic in the two child selectors
    exactly as the Python code is.  The Python list used as a stack appends
    and pops at its end; it is embedded as a Lean list growing at the head.
    The unbounded `while True` is given an explicit step budget; the lemma
    `iterLoop_spec` shows any budget of at least `stepCost` steps yields the
    loop's full output, so the budget never cuts a run short. -/
def iterLoop (le ri : Tree α β → Tree α β) (inRange : α → Bool) :
    Nat → Tree α β → List (Tree α β) → Bool → List (α × β)
  | 0, _, _, _ => []
  | fuel + 1, t, stack, goLeft =>
    match t with
    | .nil => []
    | .node _ k v _ =>
      if (le t).isNil = false ∧ goLeft = true then
        iterLoop le ri inRange fuel (le t) (t :: stack) goLeft
      else
        (if inRange k then [(k, v)] else []) ++
          (if (ri t).isNil = false then iterLoop le ri inRange fuel (ri t) stack true
           else
             match stack with
             | [] => []
             | p :: s => iterLoop le ri inRange fuel p s false)

/-- Number of loop iterations a full forward traversal of `t` takes: one per
    emitted node plus one per push. -/
def stepCost : Tree α β → Nat
  | .nil => 0
  | .node l _ _ r =>
    (match l with
      | .nil => 0
      | .node _ _ _ _ => stepCost l + 1) + stepCost r + 1

/-- Output of the loop once it resumes a popped ancestor stack. -/
def contPop (le ri : Tree α β → Tree α β) (inRange : α → Bool) (fuel : Nat) :
    List (Tree α β) → List (α × β)
  | [] => []
  | p :: s => iterLoop le ri inRange fuel p s false

/-- Output of the emit phase at a node: the node's own item when in range,
    then its whole right subtree. -/
def emitF (inRange : α → Bool) : Tree α β → List (α × β)
  | .nil => []
  | .node _ k v r =>
    (if inRange k then [(k, v)] else []) ++ (itemsList r).filter (fun p => inRange p.1)

theorem iterLoop_step (le ri : Tree α β → Tree α β) (inRange : α → Bool) (fuel : Nat)
    (l : Tree α β) (k : α) (v : β) (r : Tree α β) (stack : List (Tree α β)) (goLeft : Bool) :
    iterLoop le ri inRange (fuel + 1) (.node l k v r) stack goLeft
      = if (le (.node l k v r)).isNil = false ∧ goLeft = true then
          iterLoop le ri inRange fuel (le (.node l k v r)) (.node l k v r :: stack) goLeft
        else
          (if inRange k then [(k, v)] else []) ++
            (if (ri (.node l k v r)).isNil = false then
              iterLoop le ri inRange fuel (ri (.node l k v r)) stack true
             else contPop le ri inRange fuel stack) := by
  cases stack <;> rfl

theorem filter_items_node (inRange : α → Bool) (l : Tree α β) (k : α) (v : β) (r : Tree α β) :
    (itemsList (.node l k v r)).filter (fun p => inRange p.1)
      = (itemsList l).filter (fun p => inRange p.1) ++ emitF inRange (.node l k v r) := by
  rw [itemsList, List.filter_append, emitF, List.filter_cons]
  by_cases h : inRange k <;> simp [h]

theorem iterLoop_spec (inRange : α → Bool) :
    ∀ t : Tree α β, ∀ (s : List (Tree α β)) (fuel : Nat),
      (t.isNil = false → ∀ gL : Bool, ((leftSel t).isNil = true ∨ gL = false) →
        iterLoop leftSel rightSel inRange (stepCost (rightSel t) + fuel + 1) t s gL
          = emitF inRange t ++ contPop leftSel rightSel inRange fuel s)
      ∧ (t.isNil = false →
        iterLoop leftSel rightSel inRange (stepCost t + fuel) t s true
          = (itemsList t).filter (fun p => inRange p.1)
            ++ contPop leftSel rightSel inRange fuel s) := by
  intro t
  induction t with
  | nil =>
    intro s fuel
    constructor <;> · intro h; simp [Tree.isNil] at h
  | node l k v r ihl ihr =>
    intro s fuel
    have hemit : ∀ gL : Bool, (l.isNil = true ∨ gL = false) →
        iterLoop leftSel rightSel inRange (stepCost r + fuel + 1) (.node l k v r) s gL
          = emitF inRange (.node l k v r) ++ contPop leftSel rightSel inRange fuel s := by
      intro gL hgl
      rw [iterLoop_step]
      rw [if_neg (by
        rintro ⟨h1, h2⟩
        simp only [leftSel] at h1
        rcases hgl with hgl | hgl
        · rw [hgl] at h1; cases h1
        · rw [hgl] at h2; cases h2)]
      simp only [rightSel]
      cases r with
      | nil =>
        rw [if_neg (show ¬ ((Tree.nil : Tree α β).isNil = false) by simp [Tree.isNil])]
        simp [emitF, itemsList, stepCost]
      | node rl rk rv rr =>
        rw [if_pos (show (Tree.node rl rk rv rr).isNil = false from rfl)]
        rw [(ihr s fuel).2 rfl]
        simp [emitF, List.append_assoc]
    refine ⟨fun _ gL hgl => hemit gL (by simpa [leftSel] using hgl), fun _ => ?_⟩
    cases l with
    | nil =>
      have harith : stepCost (.node (Tree.nil : Tree α β) k v r) + fuel
          = stepCost r + fuel + 1 := by
        simp [stepCost]
        omega
      rw [harith, hemit true (Or.inl rfl), filter_items_node]
      simp [itemsList]
    | node ll lk lv lr =>
      have harith : stepCost (.node (Tree.node ll lk lv lr) k v r) + fuel
          = stepCost (Tree.node ll lk lv lr) + (stepCost r + fuel + 1) + 1 := by
        simp [stepCost]
        omega
      rw [harith, iterLoop_step]
      rw [if_pos (show (leftSel (.node (.node ll lk lv lr) k v r)).isNil = false ∧ true = true
        from ⟨rfl, rfl⟩)]
      simp only [leftSel]
      rw [(ihl (.node (.node ll lk lv lr) k v r :: s) (stepCost r + fuel + 1)).2 rfl]
      have hcont : contPop leftSel rightSel inRange (stepCost r + fuel + 1)
          (.node (.node ll lk lv lr) k v r :: s)
          = iterLoop leftSel rightSel inRange (stepCost r + fuel + 1)
              (.node (.node ll lk lv lr) k v r) s false := rfl
      rw [hcont, hemit false (Or.inr rfl)]
      simp [filter_items_node, List.append_assoc]

theorem stepCost_le (t : Tree α β) : stepCost t ≤ 2 * size t := by
  induction t with
  | nil => simp [stepCost, size]
  | node l k v r ihl ihr =>
    cases l with
    | nil =>
      simp only [stepCost, size]
      simp [size] at ihr ⊢
      omega
    | node ll lk lv lr =>
      simp only [stepCost, size] at ihl ihr ⊢
      omega

theorem iterLoop_full (inRange : α → Bool) {t : Tree α β} (ht : t.isNil = false)
    {fuel : Nat} (hf : stepCost t ≤ fuel) :
    iterLoop leftSel rightSel inRange fuel t [] true
      = (itemsList t).filter (fun p => inRange p.1) := by
  obtain ⟨m, rfl⟩ : ∃ m, fuel = stepCost t + m := ⟨fuel - stepCost t, by omega⟩
  rw [(iterLoop_spec inRange t [] m).2 ht]
  simp [contPop]

/-- Mirror image of a tree: children swapped at every node. -/
def mirror : Tree α β → Tree α β
  | .nil => .nil
  | .node l k v r => .node (mirror r) k v (mirror l)

theorem isNil_mirror (t : Tree α β) : (mirror t).isNil = t.isNil := by
  cases t <;> rfl

theorem size_mirror (t : Tree α β) : size (mirror t) = size t := by
  induction t with
  | nil => rfl
  | node l k v r ihl ihr =>
    simp only [mirror, size, ihl, ihr]
    omega

theorem items_mirror (t : Tree α β) : itemsList (mirror t) = (itemsList t).reverse := by
  induction t with
  | nil => rfl
  | node l k v r ihl ihr => simp [mirror, itemsList, ihl, ihr]

/-- Swapping the two selectors is forward iteration of the mirror image. -/
theorem iterLoop_mirror (inRange : α → Bool) :
    ∀ (fuel : Nat) (t : Tree α β) (s : List (Tree α β)) (gl : Bool),
    iterLoop rightSel leftSel inRange fuel t s gl
      = iterLoop leftSel rightSel inRange fuel (mirror t) (s.map mirror) gl := by
  intro fuel
  induction fuel with
  | zero => intro t s gl; rfl
  | succ fuel ih =>
    intro t s gl
    cases t with
    | nil => rfl
    | node l k v r =>
      rw [iterLoop_step]
      rw [show mirror (Tree.node l k v r) = Tree.node (mirror r) k v (mirror l) from rfl]
      rw [iterLoop_step]
      simp only [leftSel, rightSel, isNil_mirror]
      by_cases h1 : r.isNil = false ∧ gl = true
      · rw [if_pos h1, if_pos h1]
        rw [ih r (Tree.node l k v r :: s) gl]
        rfl
      · rw [if_neg h1, if_neg h1]
        congr 1
        by_cases h2 : l.isNil = false
        · rw [if_pos h2, if_pos h2]
          rw [ih l s true]
        · rw [if_neg h2, if_neg h2]
          cases s with
          | nil => rfl
          | cons p s' =>
            simp only [contPop, List.map_cons]
            exact ih p s' false

/-- Range predicate `in_range` built by _iter_items from the optional bounds;
    a missing start key is replaced by min_key() of the tree. -/
def rangePred (t : Tree α β) (startKey endKey : Option α) : α → Bool :=
  match t with
  | .nil => fun _ => true
  | .node l k v _ =>
    match startKey, endKey with
    | none, none => fun _ => true
    | _, _ =>
      let s := match startKey with
        | some s => s
        | none => (leftmostItem l (k, v)).1
      match endKey with
      | none => fun x => decide (s ≤ x)
      | some e => fun x => decide (s ≤ x) && decide (x < e)

/-- ABCTree.iter_items together with iter_items_forward, iter_items_backward
    and _iter_items: empty guard, then the stack loop over the whole tree with
    the range predicate; forward runs it with the natural child selectors,
    backward (reverse=True) with the two selectors swapped.  The explicit step
    budget 2*size+1 exceeds the loop's run length (`iterLoop_full` together
    with `stepCost_le`), so it never cuts the loop short. -/
def iter_items (t : Tree α β) (startKey endKey : Option α) (reverse : Bool) :
    List (α × β) :=
  match t with
  | .nil => []
  | .node _ _ _ _ =>
    if reverse then
      iterLoop rightSel leftSel (rangePred t startKey endKey) (2 * size t + 1) t [] true
    else
      iterLoop leftSel rightSel (rangePred t startKey endKey) (2 * size t + 1) t [] true

/-- _ABCTree.key_slice: the keys of the bounded items iterator. -/
def key_slice (t : Tree α β) (startKey endKey : Option α) (reverse : Bool) : List α :=
  (iter_items t startKey endKey reverse).map Prod.fst

theorem iter_items_forward (t : Tree α β) (sk ek : Option α) :
    iter_items t sk ek false = (itemsList t).filter (fun p => rangePred t sk ek p.1) := by
  cases t with
  | nil => rfl
  | node l k v r =>
    show iterLoop leftSel rightSel _ _ _ [] true = _
    exact iterLoop_full _ (show (Tree.node l k v r).isNil = false from rfl)
      (le_trans (stepCost_le _) (by omega))

theorem iter_items_backward (t : Tree α β) (sk ek : Option α) :
    iter_items t sk ek true
      = ((itemsList t).filter (fun p => rangePred t sk ek p.1)).reverse := by
  cases t with
  | nil => rfl
  | node l k v r =>
    show iterLoop rightSel leftSel _ _ _ [] true = _
    rw [iterLoop_mirror, List.map_nil]
    rw [iterLoop_full _ (by rw [isNil_mirror]; rfl)
      (le_trans (stepCost_le _) (by rw [size_mirror]; omega))]
    rw [items_mirror, List.filter_reverse]

theorem rangePred_none_none (t : Tree α β) : rangePred t none none = fun _ => true := by
  cases t <;> rfl

theorem sorted_head_min {l : List (α × β)} (hs : l.Pairwise (fun p q => p.1 < q.1))
    {m : α × β} (hh : l.head? = some m) : ∀ q ∈ l, m.1 ≤ q.1 := by
  cases l with
  | nil => cases hh
  | cons a l =>
    obtain rfl := Option.some_inj.mp hh
    intro q hq
    rcases List.mem_cons.mp hq with rfl | hq'
    · exact le_refl _
    · exact le_of_lt ((List.pairwise_cons.mp hs).1 q hq')

/-- min_key() bounds every key of a BST from below. -/
theorem leftmost_le {l : Tree α β} {k : α} {v : β} {r : Tree α β}
    (h : BST (.node l k v r)) :
    ∀ x ∈ keysList (.node l k v r), (leftmostItem l (k, v)).1 ≤ x := by
  have hh : (itemsList (.node l k v r)).head? = some (leftmostItem l (k, v)) := by
    rw [show itemsList (.node l k v r) = itemsList l ++ (k, v) :: itemsList r from rfl]
    exact leftmostItem_head l k v _
  intro x hx
  obtain ⟨p, hp, rfl⟩ := List.mem_map.mp hx
  exact sorted_head_min (items_pairwise h) hh p hp

/-- The descent of ABCTree.pop_item: keep taking the left child when there is
    one, else the right child, until a leaf is reached; the second argument is
    the item of the node the loop currently stands on. -/
def popDescend : Tree α β → α × β → α × β
  | .nil, d => d
  | .node l k v r, _ =>
    if l.isNil = false then popDescend l (k, v)
    else if r.isNil = false then popDescend r (k, v)
    else (k, v)

/-- ABCTree.pop_item: raises KeyError on the empty tree (the method's own
    docstring says KeyError), otherwise removes the leaf found by the
    left-preferring descent and returns its item. -/
def pop_item (t : Tree α β) : Except PyError ((α × β) × Tree α β) :=
  match t with
  | .nil => .error .keyError
  | .node _ k v _ =>
    let p := popDescend t (k, v)
    match remove t p.1 with
    | .ok t2 => .ok (p, t2)
    | .error e => .error e

/-- _ABCTree.pop_min: min_item (ValueError when empty) then remove. -/
def pop_min (t : Tree α β) : Except PyError ((α × β) × Tree α β) :=
  match min_item t with
  | .ok p =>
    match remove t p.1 with
    | .ok t2 => .ok (p, t2)
    | .error e => .error e
  | .error e => .error e

/-- _ABCTree.pop_max: max_item (ValueError when empty) then remove. -/
def pop_max (t : Tree α β) : Except PyError ((α × β) × Tree α β) :=
  match max_item t with
  | .ok p =>
    match remove t p.1 with
    | .ok t2 => .ok (p, t2)
    | .error e => .error e
  | .error e => .error e

/-- _ABCTree.set_default: return the stored value; on KeyError insert the
    default and return it. -/
def set_default (t : Tree α β) (key : α) (d : β) : β × Tree α β :=
  match get_value t key with
  | some v => (v, t)
  | none => (d, insert t key d)

/-- _ABCTree.remove_items: iterate over frozenset(keys) — an unordered
    deduplicated snapshot of the key sequence, taken in full before any
    deletion — removing each key; the snapshot is modelled as List.dedup. -/
def remove_items (t : Tree α β) (keys : List α) : Except PyError (Tree α β) :=
  keys.dedup.foldlM (fun tr k => remove tr k) t

/-- The slice branch of _ABCTree.__delitem__: del T[s:e] hands the key_slice
    generator over the tree itself to remove_items. -/
def del_slice (t : Tree α β) (startKey endKey : Option α) : Except PyError (Tree α β) :=
  remove_items t (key_slice t startKey endKey false)

/-- The _multi_tree_get helper: the value from the first tree of the list that
    holds the key; `none` models the final raise when no tree does. -/
def multi_tree_get : List (Tree α β) → α → Option β
  | [], _ => none
  | tr :: rest, key =>
    match get_value tr key with
    | some v => some v
    | none => multi_tree_get rest key

/-- _ABCTree.union: the frozenset union of the operands' key universes
    (modelled as a deduplicated concatenation — a frozenset's iteration order
    is unspecified), each key valued through _multi_tree_get over
    [self, t1, t2, ...]; the item sequence goes to the class constructor,
    whose ingestion of items (inserting each pair; the constructor itself is
    outside abctree.py) is modelled by ofList. -/
def union (t : Tree α β) (trees : List (Tree α β)) : Tree α β :=
  ofList (((t :: trees).map keysList).join.dedup.filterMap
    (fun k => (multi_tree_get (t :: trees) k).map (fun v => (k, v))))

/-- ABCTree.foreach with order=-1: the pre-order item sequence (each node
    before its children, left subtree before right). -/
def preorderItems : Tree α β → List (α × β)
  | .nil => []
  | .node l k v r => (k, v) :: (preorderItems l ++ preorderItems r)

/-- _ABCTree.copy: a fresh tree filled through foreach(tree.insert, order=-1).
    foreach's inner _traverse dereferences the root unconditionally, so on the
    empty tree it raises AttributeError (None has no attribute key); that
    crash is modelled as `none`. -/
def copy (t : Tree α β) : Option (Tree α β) :=
  match t with
  | .nil => none
  | .node _ _ _ _ =>
    some ((preorderItems t).foldl (fun tr p => insert tr p.1 p.2) .nil)

theorem popDescend_mem : ∀ (t : Tree α β), t.isNil = false →
    ∀ d, popDescend t d ∈ itemsList t := by
  intro t
  induction t with
  | nil => intro h; cases h
  | node l k v r ihl ihr =>
    intro _ d
    rw [popDescend]
    simp only [itemsList, List.mem_append, List.mem_cons]
    by_cases h1 : l.isNil = false
    · rw [if_pos h1]
      exact Or.inl (ihl h1 (k, v))
    · rw [if_neg h1]
      by_cases h2 : r.isNil = false
      · rw [if_pos h2]
        exact Or.inr (Or.inr (ihr h2 (k, v)))
      · rw [if_neg h2]
        exact Or.inr (Or.inl rfl)

theorem preorder_perm (t : Tree α β) : (preorderItems t).Perm (itemsList t) := by
  induction t with
  | nil => exact List.Perm.refl _
  | node l k v r ihl ihr =>
    rw [preorderItems, itemsList]
    refine List.Perm.trans ?_ List.perm_middle.symm
    exact List.Perm.cons _ (List.Perm.append ihl ihr)

theorem multi_tree_get_none_iff {ts : List (Tree α β)} {key : α} :
    multi_tree_get ts key = none ↔ ∀ tr ∈ ts, get_value tr key = none := by
  induction ts with
  | nil => simp [multi_tree_get]
  | cons tr rest ih =>
    rw [multi_tree_get]
    cases hg : get_value tr key with
    | some v =>
      simp only [List.mem_cons]
      constructor
      · intro h; cases h
      · intro h
        rw [h tr (Or.inl rfl)] at hg
        cases hg
    | none =>
      rw [ih]
      constructor
      · intro h q hq
        rcases List.mem_cons.mp hq with rfl | hq'
        · exact hg
        · exact h q hq'
      · intro h q hq
        exact h q (List.mem_cons_of_mem tr hq)

theorem filterMap_keys_sublist (g : α → Option β) :
    ∀ ks : List α,
      ((ks.filterMap (fun k => (g k).map (fun v => (k, v)))).map Prod.fst).Sublist ks := by
  intro ks
  induction ks with
  | nil => simp
  | cons k ks ih =>
    cases hg : g k with
    | none =>
      rw [List.filterMap_cons_none (by simp [hg])]
      exact ih.cons k
    | some v =>
      have hstep : (k :: ks).filterMap (fun k => (g k).map (fun v => (k, v)))
          = (k, v) :: ks.filterMap (fun k => (g k).map (fun v => (k, v))) := by
        simp [List.filterMap_cons, hg]
      rw [hstep]
      simpa using ih.cons₂ k

theorem union_get {t : Tree α β} {ts : List (Tree α β)}
    (h : BST t) (hts : ∀ x ∈ ts, BST x) (q : α) :
    get_value (union t ts) q = multi_tree_get (t :: ts) q := by
  have hBall : ∀ x ∈ t :: ts, BST x := by
    intro x hx
    rcases List.mem_cons.mp hx with rfl | hx'
    · exact h
    · exact hts x hx'
  have hnd : ((((t :: ts).map keysList).join.dedup.filterMap
      (fun k => (multi_tree_get (t :: ts) k).map (fun v => (k, v)))).map Prod.fst).Nodup :=
    (List.nodup_dedup _).sublist (filterMap_keys_sublist _ _)
  rw [union, get_ofList hnd]
  by_cases hq : q ∈ ((t :: ts).map keysList).join.dedup
  · cases hmg : multi_tree_get (t :: ts) q with
    | some v =>
      have hmem : (q, v) ∈ ((t :: ts).map keysList).join.dedup.filterMap
          (fun k => (multi_tree_get (t :: ts) k).map (fun v => (k, v))) :=
        List.mem_filterMap.mpr ⟨q, hq, by simp [hmg]⟩
      rw [find?_key_of_mem hnd hmem]
    | none =>
      have hfind : (((t :: ts).map keysList).join.dedup.filterMap
          (fun k => (multi_tree_get (t :: ts) k).map (fun v => (k, v)))).find?
            (fun p => decide (p.1 = q)) = none := by
        refine List.find?_eq_none.mpr fun p hp => by
          simp only [decide_eq_true_eq]
          intro hpq
          obtain ⟨a, ha, hfa⟩ := List.mem_filterMap.mp hp
          cases hma : multi_tree_get (t :: ts) a with
          | none => rw [hma] at hfa; cases hfa
          | some w =>
            rw [hma] at hfa
            obtain rfl : (a, w) = p := by simpa using hfa
            have haq : a = q := hpq
            rw [haq] at hma
            rw [hma] at hmg
            cases hmg
      rw [hfind]
  · have hnone : multi_tree_get (t :: ts) q = none := by
      rw [multi_tree_get_none_iff]
      intro tr htr
      have hnq : q ∉ keysList tr := by
        intro hmem
        exact hq (List.mem_dedup.mpr (List.mem_join.mpr
          ⟨keysList tr, List.mem_map_of_mem keysList htr, hmem⟩))
      cases hgv : get_value tr q with
      | none => rfl
      | some w =>
        exact absurd ((mem_keys_iff_get (hBall tr htr) q).mpr (by simp [hgv])) hnq
    have hfind : (((t :: ts).map keysList).join.dedup.filterMap
        (fun k => (multi_tree_get (t :: ts) k).map (fun v => (k, v)))).find?
          (fun p => decide (p.1 = q)) = none := by
      refine List.find?_eq_none.mpr fun p hp => by
        simp only [decide_eq_true_eq]
        intro hpq
        obtain ⟨a, ha, hfa⟩ := List.mem_filterMap.mp hp
        cases hma : multi_tree_get (t :: ts) a with
        | none => rw [hma] at hfa; cases hfa
        | some w =>
          rw [hma] at hfa
          obtain rfl : (a, w) = p := by simpa using hfa
          have haq : a = q := hpq
          rw [haq] at ha
          exact hq ha
    rw [hfind, hnone]

theorem removeFold_ok {ds : List α} (hnd : ds.Nodup) :
    ∀ {t : Tree α β}, BST t → (∀ k ∈ ds, contains t k = true) →
    ∃ t2, ds.foldlM (fun tr k => remove tr k) t = .ok t2 ∧ BST t2 ∧
      ∀ q, get_value t2 q = if q ∈ ds then none else get_value t q := by
  induction ds with
  | nil =>
    intro t hb _
    exact ⟨t, rfl, hb, fun q => by simp⟩
  | cons d ds ih =>
    intro t hb hall
    have hcd : contains t d = true := hall d (List.mem_cons_self d ds)
    have hrem : remove t d
        = .ok (ofList ((itemsList t).filter fun p => decide (p.1 ≠ d))) := by
      rw [remove, if_pos hcd]
    obtain ⟨hb1, hget1⟩ := remove_ok hb hrem
    obtain ⟨hnd1, hnd2⟩ := List.nodup_cons.mp hnd
    have hall1 : ∀ k ∈ ds, contains (ofList ((itemsList t).filter
        fun p => decide (p.1 ≠ d))) k = true := by
      intro k hk
      have hkd : k ≠ d := fun hEq => hnd1 (hEq ▸ hk)
      rw [contains, hget1 k, if_neg hkd]
      exact hall k (List.mem_cons_of_mem d hk)
    obtain ⟨t2, heq, hb2, hget2⟩ := ih hnd2 hb1 hall1
    refine ⟨t2, ?_, hb2, ?_⟩
    · rw [List.foldlM_cons, hrem]
      exact heq
    · intro q
      rw [hget2 q, hget1 q]
      by_cases hqd : q = d
      · subst hqd
        simp
      · by_cases hqds : q ∈ ds
        · simp [hqds, hqd]
        · simp [hqds, hqd]

theorem remove_items_ok {t : Tree α β} (h : BST t) {ks : List α}
    (hall : ∀ k ∈ ks, contains t k = true) :
    ∃ t2, remove_items t ks = .ok t2 ∧ BST t2 ∧
      ∀ q, get_value t2 q = if q ∈ ks then none else get_value t q := by
  obtain ⟨t2, heq, hb2, hget⟩ := removeFold_ok (List.nodup_dedup ks) h
    (fun k hk => hall k (List.mem_dedup.mp hk))
  refine ⟨t2, heq, hb2, fun q => ?_⟩
  rw [hget q]
  by_cases hq : q ∈ ks
  · simp [hq, List.mem_dedup]
  · simp [hq, List.mem_dedup]

theorem pop_item_spec {l : Tree α β} {k : α} {v : β} {r : Tree α β}
    (h : BST (.node l k v r)) :
    ∃ t2, pop_item (.node l k v r)
        = .ok (popDescend (.node l k v r) (k, v), t2) ∧ BST t2 ∧
      get_value (.node l k v r) (popDescend (.node l k v r) (k, v)).1
          = some (popDescend (.node l k v r) (k, v)).2 ∧
      ∀ q, get_value t2 q
          = if q = (popDescend (.node l k v r) (k, v)).1 then none
            else get_value (.node l k v r) q := by
  have hmem : popDescend (.node l k v r) (k, v) ∈ itemsList (.node l k v r) :=
    popDescend_mem _ (show (Tree.node l k v r).isNil = false from rfl) (k, v)
  have hgv : get_value (.node l k v r) (popDescend (.node l k v r) (k, v)).1
      = some (popDescend (.node l k v r) (k, v)).2 :=
    (mem_items_get h _ _).mp hmem
  have hrem : remove (.node l k v r) (popDescend (.node l k v r) (k, v)).1
      = .ok (ofList ((itemsList (.node l k v r)).filter
          fun p => decide (p.1 ≠ (popDescend (.node l k v r) (k, v)).1))) := by
    rw [remove, if_pos (by rw [contains, hgv]; rfl)]
  obtain ⟨hb2, hget2⟩ := remove_ok h hrem
  refine ⟨_, ?_, hb2, hgv, hget2⟩
  rw [pop_item]
  rw [hrem]

theorem size_insert {t : Tree α β} {key : α} (hg : get_value t key = none) (val : β) :
    size (insert t key val) = size t + 1 := by
  induction t with
  | nil => rfl
  | node l k v r ihl ihr =>
    rw [get_value] at hg
    by_cases h1 : key = k
    · rw [if_pos h1] at hg
      cases hg
    · rw [if_neg h1] at hg
      by_cases h2 : key < k
      · rw [if_pos h2] at hg
        rw [insert, if_neg h1, if_pos h2]
        simp only [size, ihl hg]
        omega
      · rw [if_neg h2] at hg
        rw [insert, if_neg h1, if_neg h2]
        simp only [size, ihr hg]
        omega

theorem copy_spec {t : Tree α β} (h : BST t) (hne : t.isNil = false) :
    ∃ c, copy t = some c ∧ BST c ∧ itemsList c = itemsList t := by
  cases t with
  | nil => cases hne
  | node l k v r =>
    have hperm := preorder_perm (Tree.node l k v r)
    have hndk : ((preorderItems (Tree.node l k v r)).map Prod.fst).Nodup :=
      ((hperm.map Prod.fst).nodup_iff).mpr (keys_nodup h)
    refine ⟨ofList (preorderItems (Tree.node l k v r)), rfl, BST_ofList _, ?_⟩
    have hgc : ∀ q, get_value (ofList (preorderItems (Tree.node l k v r))) q
        = get_value (Tree.node l k v r) q := by
      intro q
      rw [get_ofList hndk]
      cases hgq : get_value (Tree.node l k v r) q with
      | some w =>
        have hmem : (q, w) ∈ preorderItems (Tree.node l k v r) :=
          hperm.mem_iff.mpr ((mem_items_get h q w).mpr hgq)
        rw [find?_key_of_mem hndk hmem]
      | none =>
        have hfind : (preorderItems (Tree.node l k v r)).find?
            (fun p => decide (p.1 = q)) = none := by
          refine List.find?_eq_none.mpr fun p hp => by
            simp only [decide_eq_true_eq]
            intro hpq
            have hpi : p ∈ itemsList (Tree.node l k v r) := hperm.mem_iff.mp hp
            have : get_value (Tree.node l k v r) p.1 = some p.2 :=
              (mem_items_get h p.1 p.2).mp hpi
            rw [hpq, hgq] at this
            cases this
        rw [hfind]
    refine items_ext (items_pairwise (BST_ofList _)) (items_pairwise h) fun p => ?_
    rw [mem_items_get (BST_ofList _) p.1 p.2, mem_items_get h p.1 p.2, hgc p.1]

instance instDecEqExcept {ε σ : Type} [DecidableEq ε] [DecidableEq σ] :
    DecidableEq (Except ε σ)
  | .error e₁, .error e₂ =>
    match decEq e₁ e₂ with
    | isTrue h => isTrue (by rw [h])
    | isFalse h => isFalse fun hc => h (Except.error.inj hc)
  | .error _, .ok _ => isFalse fun hc => Except.noConfusion hc
  | .ok _, .error _ => isFalse fun hc => Except.noConfusion hc
  | .ok a, .ok b =>
    match decEq a b with
    | isTrue h => isTrue (by rw [h])
    | isFalse h => isFalse fun hc => h (Except.ok.inj hc)

/-- The tree of spec scenario 1: {5:'e', 3:'c', 8:'h', 1:'a', 4:'d', 7:'g',
    9:'i'} inserted in that order into an empty store. -/
def scenarioTree : Tree Nat Char :=
  ofList [(5, 'e'), (3, 'c'), (8, 'h'), (1, 'a'), (4, 'd'), (7, 'g'), (9, 'i')]

theorem multi_tree_get_isSome_iff {ts : List (Tree α β)} {key : α} :
    (multi_tree_get ts key).isSome = true ↔
      ∃ tr ∈ ts, (get_value tr key).isSome = true := by
  induction ts with
  | nil => simp [multi_tree_get]
  | cons tr rest ih =>
    rw [multi_tree_get]
    cases hg : get_value tr key with
    | some v =>
      simp only [Option.isSome_some, true_iff]
      exact ⟨tr, List.mem_cons_self tr rest, by rw [hg]; rfl⟩
    | none =>
      rw [ih]
      constructor
      · rintro ⟨x, hx, hxs⟩
        exact ⟨x, List.mem_cons_of_mem tr hx, hxs⟩
      · rintro ⟨x, hx, hxs⟩
        rcases List.mem_cons.mp hx with rfl | hx'
        · rw [hg] at hxs
          cases hxs
        · exact ⟨x, hx', hxs⟩

/-- C1: on every non-empty BST, items() forward yields exactly the in-order
    item list — its key sequence is strictly ascending and is precisely the
    tree's sorted key list — and items(reverse=True) yields exactly the
    reverse of that sequence. -/
theorem c1_items_ordered (t : Tree α β) (hb : BST t) (hne : t.isNil = false) :
    iter_items t none none false = itemsList t ∧
    ((iter_items t none none false).map Prod.fst).Sorted (· < ·) ∧
    (iter_items t none none false).map Prod.fst = keysList t ∧
    iter_items t none none true = (itemsList t).reverse := by
  have hf : iter_items t none none false = itemsList t := by
    rw [iter_items_forward, rangePred_none_none]
    simp
  refine ⟨hf, ?_, ?_, ?_⟩
  · rw [hf]
    exact keys_sorted hb
  · rw [hf]
    rfl
  · rw [iter_items_backward, rangePred_none_none]
    simp

theorem c1_witness :
    iter_items scenarioTree none none false
        = [(1, 'a'), (3, 'c'), (4, 'd'), (5, 'e'), (7, 'g'), (8, 'h'), (9, 'i')] ∧
    iter_items scenarioTree none none true
        = [(9, 'i'), (8, 'h'), (7, 'g'), (5, 'e'), (4, 'd'), (3, 'c'), (1, 'a')] := by
  obtain ⟨h1, _, _, h4⟩ := c1_items_ordered scenarioTree (by decide) (by decide)
  exact ⟨by rw [h1]; decide, by rw [h4]; decide⟩

/-- C2: the scenario-1 navigation answers hold, and in general on a BST:
    succ_item / prev_item of a present key return the item with the smallest
    strictly-greater / greatest strictly-smaller key, floor_item /
    ceiling_item return the item with the greatest key ≤ / smallest key ≥
    the argument, and an exact key match makes floor/ceiling return that
    key's own item (the short-circuit case). -/
theorem c2_navigation :
    (succ_item scenarioTree 5 = .ok (7, 'g') ∧
     prev_item scenarioTree 5 = .ok (4, 'd') ∧
     floor_item scenarioTree 6 = .ok (5, 'e') ∧
     ceiling_item scenarioTree 6 = .ok (7, 'g')) ∧
    (∀ {γ δ : Type} [LinearOrder γ] (t : Tree γ δ) (key : γ) (m : γ × δ),
      BST t → key ∈ keysList t →
      (succ_item t key = .ok m ↔
        m ∈ itemsList t ∧ key < m.1 ∧ ∀ q ∈ itemsList t, key < q.1 → m.1 ≤ q.1)) ∧
    (∀ {γ δ : Type} [LinearOrder γ] (t : Tree γ δ) (key : γ) (m : γ × δ),
      BST t → key ∈ keysList t →
      (prev_item t key = .ok m ↔
        m ∈ itemsList t ∧ m.1 < key ∧ ∀ q ∈ itemsList t, q.1 < key → q.1 ≤ m.1)) ∧
    (∀ {γ δ : Type} [LinearOrder γ] (t : Tree γ δ) (key : γ) (m : γ × δ),
      BST t →
      (floor_item t key = .ok m ↔
        m ∈ itemsList t ∧ m.1 ≤ key ∧ ∀ q ∈ itemsList t, q.1 ≤ key → q.1 ≤ m.1)) ∧
    (∀ {γ δ : Type} [LinearOrder γ] (t : Tree γ δ) (key : γ) (m : γ × δ),
      BST t →
      (ceiling_item t key = .ok m ↔
        m ∈ itemsList t ∧ key ≤ m.1 ∧ ∀ q ∈ itemsList t, key ≤ q.1 → m.1 ≤ q.1)) ∧
    (∀ {γ δ : Type} [LinearOrder γ] (t : Tree γ δ) (key : γ) (v : δ),
      BST t → get_value t key = some v →
      floor_item t key = .ok (key, v) ∧ ceiling_item t key = .ok (key, v)) := by
  refine ⟨⟨by decide, by decide, by decide, by decide⟩, ?_, ?_, ?_, ?_, ?_⟩
  · intro γ δ _ t key m hb hk
    exact succ_item_ok_iff hb hk
  · intro γ δ _ t key m hb hk
    exact prev_item_ok_iff hb hk
  · intro γ δ _ t key m hb
    exact floor_item_ok_iff hb key
  · intro γ δ _ t key m hb
    exact ceiling_item_ok_iff hb key
  · intro γ δ _ t key v hb hv
    have hm : (key, v) ∈ itemsList t := (mem_items_get hb key v).mpr hv
    constructor
    · exact (floor_item_ok_iff hb key).mpr ⟨hm, le_refl key, fun q _ hq => hq⟩
    · exact (ceiling_item_ok_iff hb key).mpr ⟨hm, le_refl key, fun q _ hq => hq⟩

theorem c2_witness :
    succ_item scenarioTree 3 = .ok (4, 'd') ∧
    floor_item scenarioTree 10 = .ok (9, 'i') :=
  ⟨(c2_navigation.2.1 scenarioTree 3 (4, 'd') (by decide) (by decide)).mpr (by decide),
   (c2_navigation.2.2.2.1 scenarioTree 10 (9, 'i') (by decide)).mpr (by decide)⟩

/-- C3 counterexample: pop_item on the empty tree raises KeyError — the
    KeyNotFound kind, the kind raised for missing keys — not ValueError, the
    EmptyTree kind that min_item uses, contradicting the claim that pop_item
    shares the EmptyTree kind with min/max. -/
theorem c3_counterexample :
    pop_item (Tree.nil : Tree Nat Char) = .error .keyError ∧
    min_item (Tree.nil : Tree Nat Char) = .error .valueError ∧
    PyError.keyError ≠ PyError.valueError :=
  ⟨rfl, rfl, by decide⟩

/-- C3 amended: pop_item on a non-empty BST descends from the root preferring
    the left child, else the right, until a leaf, removes that key and
    returns the item; on the empty tree it fails with the KeyNotFound kind
    (KeyError), while min/max and pop_min/pop_max fail with the EmptyTree
    kind (ValueError). -/
theorem c3_pop_item :
    (∀ {γ δ : Type} [LinearOrder γ] (l : Tree γ δ) (k : γ) (v : δ) (r : Tree γ δ),
      BST (.node l k v r) →
      ∃ t2, pop_item (.node l k v r)
          = .ok (popDescend (.node l k v r) (k, v), t2) ∧
        get_value (.node l k v r) (popDescend (.node l k v r) (k, v)).1
            = some (popDescend (.node l k v r) (k, v)).2 ∧
        ∀ q, get_value t2 q
            = if q = (popDescend (.node l k v r) (k, v)).1 then none
              else get_value (.node l k v r) q) ∧
    pop_item (Tree.nil : Tree Nat Char) = .error .keyError ∧
    min_item (Tree.nil : Tree Nat Char) = .error .valueError ∧
    max_item (Tree.nil : Tree Nat Char) = .error .valueError ∧
    pop_min (Tree.nil : Tree Nat Char) = .error .valueError ∧
    pop_max (Tree.nil : Tree Nat Char) = .error .valueError := by
  refine ⟨?_, rfl, rfl, rfl, rfl, rfl⟩
  intro γ δ _ l k v r hb
  obtain ⟨t2, heq, hb2, hgv, hget⟩ := pop_item_spec hb
  exact ⟨t2, heq, hgv, hget⟩

theorem c3_witness :
    ∃ t2, pop_item (Tree.node (Tree.node Tree.nil 1 'a' Tree.nil) 2 'b' Tree.nil)
        = .ok ((1, 'a'), t2) := by
  obtain ⟨t2, heq, _, _⟩ :=
    c3_pop_item.1 (Tree.node Tree.nil 1 'a' Tree.nil) 2 'b' Tree.nil (by decide)
  exact ⟨t2, by rw [heq]; rfl⟩

theorem map_fst_filter (P : α → Bool) (l : List (α × β)) :
    (l.filter (fun p => P p.1)).map Prod.fst = (l.map Prod.fst).filter P := by
  induction l with
  | nil => rfl
  | cons a l ih =>
    by_cases h : P a.1
    · simp [List.filter_cons, h, ih]
    · simp [List.filter_cons, h, ih]

theorem key_slice_filter (t : Tree α β) (s e : α) :
    key_slice t (some s) (some e) false
      = (keysList t).filter (fun x => decide (s ≤ x) && decide (x < e)) := by
  cases t with
  | nil => rfl
  | node l k v r =>
    simp only [key_slice]
    rw [iter_items_forward]
    exact map_fst_filter _ _

theorem key_slice_some_none (t : Tree α β) (s : α) :
    key_slice t (some s) none false = (keysList t).filter (fun x => decide (s ≤ x)) := by
  cases t with
  | nil => rfl
  | node l k v r =>
    simp only [key_slice]
    rw [iter_items_forward]
    exact map_fst_filter _ _

theorem key_slice_none_some {t : Tree α β} (hb : BST t) (e : α) :
    key_slice t none (some e) false = (keysList t).filter (fun x => decide (x < e)) := by
  cases t with
  | nil => rfl
  | node l k v r =>
    simp only [key_slice]
    rw [iter_items_forward]
    have hcong : (itemsList (Tree.node l k v r)).filter
        (fun p => rangePred (Tree.node l k v r) none (some e) p.1)
        = (itemsList (Tree.node l k v r)).filter (fun p => decide (p.1 < e)) := by
      refine List.filter_congr fun p hp => ?_
      have hle : (leftmostItem l (k, v)).1 ≤ p.1 :=
        leftmost_le hb p.1 (List.mem_map_of_mem Prod.fst hp)
      show (decide ((leftmostItem l (k, v)).1 ≤ p.1) && decide (p.1 < e)) = decide (p.1 < e)
      simp [hle]
    rw [hcong]
    exact map_fst_filter (fun x => decide (x < e)) _

theorem key_slice_none_none (t : Tree α β) :
    key_slice t none none false = keysList t := by
  simp only [key_slice]
  rw [iter_items_forward, rangePred_none_none]
  simp [keysList]

/-- C4: key_slice forward with concrete bounds yields exactly the keys in
    the half-open range [start, end) in the tree's ascending key order;
    start=None starts at the minimum key inclusive; end=None is unbounded
    above, so the maximum key is included (asymmetric to a concrete,
    exclusive end); on the scenario tree key_slice(3, 8) is [3,4,5,7]. -/
theorem c4_key_slice :
    (∀ {γ δ : Type} [LinearOrder γ] (t : Tree γ δ), BST t →
      (∀ s e, key_slice t (some s) (some e) false
          = (keysList t).filter (fun x => decide (s ≤ x) && decide (x < e))) ∧
      (∀ e, key_slice t none (some e) false
          = (keysList t).filter (fun x => decide (x < e))) ∧
      (∀ s, key_slice t (some s) none false
          = (keysList t).filter (fun x => decide (s ≤ x))) ∧
      key_slice t none none false = keysList t) ∧
    key_slice scenarioTree (some 3) (some 8) false = [3, 4, 5, 7] := by
  constructor
  · intro γ δ _ t hb
    exact ⟨fun s e => key_slice_filter t s e, fun e => key_slice_none_some hb e,
      fun s => key_slice_some_none t s, key_slice_none_none t⟩
  · decide

theorem c4_witness : key_slice scenarioTree none (some 8) false = [1, 3, 4, 5, 7] := by
  rw [(c4_key_slice.1 scenarioTree (by decide)).2.1 8]
  decide

/-- C5: over a BST, succ_item fails (with the KeyNotFound kind, KeyError)
    exactly when the key is absent or is the maximum key; prev_item fails
    exactly when the key is absent or is the minimum key; in particular a
    call with an absent key fails even when in-range candidates exist, as
    for key 6 of the scenario tree. -/
theorem c5_next_item_failure :
    (∀ {γ δ : Type} [LinearOrder γ] (t : Tree γ δ) (key : γ), BST t →
      ((succ_item t key = .error .keyError ↔
          key ∉ keysList t ∨ ∀ x ∈ keysList t, x ≤ key) ∧
       (prev_item t key = .error .keyError ↔
          key ∉ keysList t ∨ ∀ x ∈ keysList t, key ≤ x))) ∧
    succ_item scenarioTree 6 = .error .keyError ∧
    prev_item scenarioTree 6 = .error .keyError := by
  refine ⟨?_, by decide, by decide⟩
  intro γ δ _ t key hb
  exact ⟨succ_item_err_iff hb key, prev_item_err_iff hb key⟩

theorem c5_witness :
    succ_item scenarioTree 9 = .error .keyError ∧
    prev_item scenarioTree 1 = .error .keyError :=
  ⟨((c5_next_item_failure.1 scenarioTree 9 (by decide)).1).mpr (by decide),
   ((c5_next_item_failure.1 scenarioTree 1 (by decide)).2).mpr (by decide)⟩

/-- C6: union builds a brand-new tree (through ofList, nothing of the
    operands is reused or modified — they are passed by value in this pure
    embedding) whose value at every key is _multi_tree_get over the operand
    order [self, t1, …], i.e. the value of the first tree containing the
    key; hence its key set is the union of the operands' key sets. -/
theorem c6_union :
    ∀ {γ δ : Type} [LinearOrder γ] (t : Tree γ δ) (ts : List (Tree γ δ)),
      BST t → (∀ x ∈ ts, BST x) →
      BST (union t ts) ∧
      (∀ q, get_value (union t ts) q = multi_tree_get (t :: ts) q) ∧
      (∀ q, contains (union t ts) q = true ↔
        contains t q = true ∨ ∃ x ∈ ts, contains x q = true) := by
  intro γ δ _ t ts hb hts
  refine ⟨BST_ofList _, fun q => union_get hb hts q, fun q => ?_⟩
  rw [contains, union_get hb hts q, multi_tree_get_isSome_iff]
  constructor
  · rintro ⟨x, hx, hxs⟩
    rcases List.mem_cons.mp hx with rfl | hx'
    · exact Or.inl hxs
    · exact Or.inr ⟨x, hx', hxs⟩
  · rintro (hc | ⟨x, hx, hxs⟩)
    · exact ⟨t, List.mem_cons_self t ts, hc⟩
    · exact ⟨x, List.mem_cons_of_mem t hx, hxs⟩

theorem c6_witness :
    get_value (union (ofList [(1, 'x'), (2, 'y')]) [ofList [(2, 'z'), (3, 'w')]]) 2
      = some 'y' := by
  rw [(c6_union (ofList [(1, 'x'), (2, 'y')]) [ofList [(2, 'z'), (3, 'w')]]
    (by decide) (by decide)).2.1 2]
  decide

/-- C7: copy of a non-empty BST is a fresh tree with the identical item
    list, built by inserting the pre-order item walk into an empty store;
    but on the empty tree foreach — and with it copy() — dereferences the
    None root (an AttributeError crash, modelled as `none`) instead of
    producing the empty copy the claim promises for every tree. -/
theorem c7_copy :
    (∀ {γ δ : Type} [LinearOrder γ] (t : Tree γ δ), BST t → t.isNil = false →
      ∃ c, copy t = some c ∧ BST c ∧ itemsList c = itemsList t) ∧
    copy (Tree.nil : Tree Nat Char) = none :=
  ⟨fun t hb hne => copy_spec hb hne, rfl⟩

theorem c7_witness :
    ∃ c, copy (Tree.node Tree.nil 1 'a' Tree.nil) = some c ∧ itemsList c = [(1, 'a')] := by
  obtain ⟨c, hc, _, hi⟩ := c7_copy.1 (Tree.node Tree.nil 1 'a' Tree.nil)
    (by decide) (by decide)
  exact ⟨c, hc, by rw [hi]; rfl⟩

/-- C8: over a BST, whenever succ_item(k) succeeds with (k2, v2), the
    reverse call prev_item(k2) succeeds and returns k together with the
    value stored at k. -/
theorem c8_succ_prev_roundtrip :
    ∀ {γ δ : Type} [LinearOrder γ] (t : Tree γ δ) (k k2 : γ) (v2 : δ),
      BST t → succ_item t k = .ok (k2, v2) →
      ∃ v, get_value t k = some v ∧ prev_item t k2 = .ok (k, v) := by
  intro γ δ _ t k k2 v2 hb hsucc
  have hk : k ∈ keysList t := by
    by_contra hk
    rw [succ_item_err hk] at hsucc
    cases hsucc
  obtain ⟨hm2, hlt, hmin⟩ := (succ_item_ok_iff hb hk).mp hsucc
  obtain ⟨v, hv⟩ := Option.isSome_iff_exists.mp ((mem_keys_iff_get hb k).mp hk)
  have hmem : (k, v) ∈ itemsList t := (mem_items_get hb k v).mpr hv
  have hk2 : k2 ∈ keysList t := List.mem_map_of_mem Prod.fst hm2
  refine ⟨v, hv, (prev_item_ok_iff hb hk2).mpr ⟨hmem, hlt, fun q hq hqlt => ?_⟩⟩
  by_contra hgt
  push_neg at hgt
  exact absurd (hmin q hq hgt) (not_le_of_lt hqlt)

theorem c8_witness :
    ∃ v, get_value scenarioTree 5 = some v ∧ prev_item scenarioTree 7 = .ok (5, v) :=
  c8_succ_prev_roundtrip scenarioTree 5 7 'g' (by decide) (by decide)

/-- C9: remove_items deduplicates its key sequence into a snapshot before
    any deletion, so duplicates cause no KeyNotFound failure; with every
    listed key present it succeeds and the result holds exactly the keys not
    listed; and del T[s:e] — remove_items fed the lazy key_slice generator
    over T itself — succeeds and removes exactly the keys in [s, e). -/
theorem c9_remove_items :
    ∀ {γ δ : Type} [LinearOrder γ] (t : Tree γ δ), BST t →
      (∀ ks : List γ, (∀ k ∈ ks, contains t k = true) →
        ∃ t2, remove_items t ks = .ok t2 ∧ BST t2 ∧
          ∀ q, (contains t2 q = true ↔ contains t q = true ∧ q ∉ ks)) ∧
      (∀ s e, ∃ t2, del_slice t (some s) (some e) = .ok t2 ∧
        ∀ q, (contains t2 q = true ↔ contains t q = true ∧ ¬ (s ≤ q ∧ q < e))) := by
  intro γ δ _ t hb
  have hmain : ∀ ks : List γ, (∀ k ∈ ks, contains t k = true) →
      ∃ t2, remove_items t ks = .ok t2 ∧ BST t2 ∧
        ∀ q, (contains t2 q = true ↔ contains t q = true ∧ q ∉ ks) := by
    intro ks hall
    obtain ⟨t2, heq, hb2, hget⟩ := remove_items_ok hb hall
    refine ⟨t2, heq, hb2, fun q => ?_⟩
    rw [contains, hget q, contains]
    by_cases hq : q ∈ ks
    · simp [hq]
    · simp [hq]
  refine ⟨hmain, fun s e => ?_⟩
  have hks := key_slice_filter t s e
  have hall : ∀ k ∈ key_slice t (some s) (some e) false, contains t k = true := by
    intro k hk
    rw [hks] at hk
    exact (mem_keys_iff_get hb k).mp (List.mem_of_mem_filter hk)
  obtain ⟨t2, heq, hb2, hiff⟩ := hmain (key_slice t (some s) (some e) false) hall
  refine ⟨t2, heq, fun q => ?_⟩
  rw [hiff q]
  constructor
  · rintro ⟨hc, hnk⟩
    refine ⟨hc, fun hrange => hnk ?_⟩
    rw [hks]
    refine List.mem_filter.mpr ⟨(mem_keys_iff_get hb q).mpr hc, ?_⟩
    simp [hrange.1, hrange.2]
  · rintro ⟨hc, hnr⟩
    refine ⟨hc, fun hk => hnr ?_⟩
    rw [hks] at hk
    have hr := (List.mem_filter.mp hk).2
    simp only [Bool.and_eq_true, decide_eq_true_eq] at hr
    exact hr

theorem c9_witness :
    ∃ t2, remove_items scenarioTree [3, 3, 8] = .ok t2 ∧
      contains t2 3 = false ∧ contains t2 5 = true := by
  obtain ⟨t2, heq, _, hc⟩ :=
    (c9_remove_items scenarioTree (by decide)).1 [3, 3, 8] (by decide)
  refine ⟨t2, heq, ?_, (hc 5).mpr ⟨by decide, by decide⟩⟩
  cases hb3 : contains t2 3 with
  | false => rfl
  | true => exact absurd ((hc 3).mp hb3).2 (by decide)

/-- C10: set_default of a present key returns the stored value and hands the
    tree back untouched (identical contents and count); of an absent key it
    returns the default and inserts exactly the pair (key, default), leaving
    every other mapping unchanged and growing the count by one. -/
theorem c10_set_default :
    ∀ {γ δ : Type} [LinearOrder γ] (t : Tree γ δ) (key : γ) (d : δ),
      (∀ v, get_value t key = some v → set_default t key d = (v, t)) ∧
      (get_value t key = none →
        (set_default t key d).1 = d ∧
        (∀ q, get_value (set_default t key d).2 q
            = if q = key then some d else get_value t q) ∧
        size (set_default t key d).2 = size t + 1) := by
  intro γ δ _ t key d
  constructor
  · intro v hv
    simp [set_default, hv]
  · intro hnone
    have h1 : set_default t key d = (d, insert t key d) := by
      simp [set_default, hnone]
    rw [h1]
    exact ⟨rfl, fun q => get_insert t key d q, size_insert hnone d⟩

theorem c10_witness :
    set_default scenarioTree 5 'z' = ('e', scenarioTree) ∧
    (set_default scenarioTree 6 'z').1 = 'z' ∧
    size (set_default scenarioTree 6 'z').2 = size scenarioTree + 1 :=
  ⟨(c10_set_default scenarioTree 5 'z').1 'e' (by decide),
   ((c10_set_default scenarioTree 6 'z').2 (by decide)).1,
   ((c10_set_default scenarioTree 6 'z').2 (by decide)).2.2⟩

end Bintrees
